import Mathlib

/-!
# The outbound HTTP service client of `pkg/gofr/service/new.go`

A shallow embedding of the request builder and dispatcher: `Get`, `GetWithHeaders`,
`Post`, `PostWithHeaders`, `NewHTTPService`, `encodeQueryParameters` and
`addHeadersToRequest`, together with the pieces of the Go standard library they call
(`url.Values`, `URL.Query`, `http.Header.Set`, `http.NewRequestWithContext`, `fmt.Sprintf`).

Conventions of the embedding.

* A Go `string` is its sequence of bytes, `GoString := List Nat`; `str` writes a literal.
  `isBytes` says that the elements are below 256; it is assumed only where the encoded
  query string is read back.
* A Go map is an association list with pairwise distinct keys; a `range` over a map
  visits the entries in an unspecified order, so a map argument is the list of its
  entries in the order the loop happens to visit them, and properties are proved for
  every such order.
* A `*http.Request` that may be nil is an `Option Request`; dereferencing nil is a
  runtime failure, `Exec.crash`.
* The parser `url.Parse` and the embedded client's method `Do` are arguments of the
  four operations, so their theorems hold for every parser and every client.
  `NewHTTPService` builds the client the package configures: `Do` is `Client.Do` of
  `net/http` over a transport, which is an argument. `urlParse` is a concrete parser
  used to evaluate the operations on examples.
* Tracing (the span and the client trace attached to the context) does not touch the
  request data and is not modelled beyond the name the span is given.
-/

namespace Service

/-! ## Go strings -/

/-- A Go `string`: a sequence of bytes. -/
abbrev GoString := List Nat

/-- The UTF-8 bytes of one character, as in a Go string literal. -/
def utf8Char (c : Char) : List Nat :=
  let n := c.toNat
  if n < 128 then [n]
  else if n < 2048 then [192 + n / 64, 128 + n % 64]
  else if n < 65536 then [224 + n / 4096, 128 + n / 64 % 64, 128 + n % 64]
  else [240 + n / 262144, 128 + n / 4096 % 64, 128 + n / 64 % 64, 128 + n % 64]

/-- A Go string literal. -/
def str (s : String) : GoString := s.toList.flatMap utf8Char

/-- Go's `strings.Join(parts, sep)`. -/
def join (sep : GoString) : List GoString → GoString
  | [] => []
  | [a] => a
  | a :: b :: rest => a ++ sep ++ join sep (b :: rest)

/-- Go's `strings.Cut(s, sep)` for a one-byte separator: the text before the first
separator and the text after it; without a separator, all of `s` and the empty string. -/
def cut (sep : Nat) : GoString → GoString × GoString
  | [] => ([], [])
  | c :: s => if c = sep then ([], s) else ((c :: (cut sep s).1), (cut sep s).2)

/-- The segments of `s` between occurrences of the byte `sep`. -/
def splitOn (sep : Nat) : GoString → List GoString
  | [] => [[]]
  | c :: s =>
    if c = sep then [] :: splitOn sep s
    else
      match splitOn sep s with
      | [] => [[c]]
      | seg :: segs => (c :: seg) :: segs

/-- Go's comparison `a <= b` on strings: lexicographic on bytes. -/
def strLe : GoString → GoString → Bool
  | [], _ => true
  | _ :: _, [] => false
  | a :: s, b :: t => decide (a < b) || (decide (a = b) && strLe s t)

/-! ## Go maps -/

/-- The value stored under `k` (`m[k]` with the presence flag). -/
def mapGet {κ ν : Type} [DecidableEq κ] : List (κ × ν) → κ → Option ν
  | [], _ => none
  | (a, y) :: m, k => if a = k then some y else mapGet m k

/-- The assignment `m[k] = x`. -/
def mapPut {κ ν : Type} [DecidableEq κ] : List (κ × ν) → κ → ν → List (κ × ν)
  | [], k, x => [(k, x)]
  | (a, y) :: m, k, x => if a = k then (a, x) :: m else (a, y) :: mapPut m k x

/-- The keys of a map. -/
def mapKeys {κ ν : Type} (m : List (κ × ν)) : List κ := m.map Prod.fst

/-! ## `net/url`: query values -/

/-- Go's `url.Values`, a `map[string][]string`. -/
abbrev Values := List (GoString × List GoString)

/-- The method `Values.Set`: `v[key] = []string{value}`. -/
def Values.Set (v : Values) (key value : GoString) : Values := mapPut v key [value]

/-- The statement `m[key] = append(m[key], value)` of `url.ParseQuery`. -/
def Values.Add (v : Values) (key value : GoString) : Values :=
  mapPut v key (((mapGet v key).getD []) ++ [value])

/-- The byte `"0123456789ABCDEF"[n]`. -/
def upperhex (n : Nat) : Nat := if n < 10 then 48 + n else 55 + n

/-- ASCII letters and digits. -/
def isAlnum (c : Nat) : Bool :=
  (decide (97 ≤ c) && decide (c ≤ 122)) || (decide (65 ≤ c) && decide (c ≤ 90))
    || (decide (48 ≤ c) && decide (c ≤ 57))

/-- Go's `shouldEscape(c, encodeQueryComponent)`: everything is escaped except
letters, digits and `-`, `_`, `.`, `~`. -/
def shouldEscape (c : Nat) : Bool :=
  !(isAlnum c || c == 45 || c == 95 || c == 46 || c == 126)

/-- The escaped form of one byte in a query component. -/
def escapeByte (c : Nat) : GoString :=
  if shouldEscape c then
    if c = 32 then [43] else [37, upperhex (c / 16 % 16), upperhex (c % 16)]
  else [c]

/-- Go's `url.QueryEscape`. -/
def QueryEscape (s : GoString) : GoString := s.flatMap escapeByte

/-- Go's `ishex`. -/
def ishex (c : Nat) : Bool :=
  (decide (48 ≤ c) && decide (c ≤ 57)) || (decide (97 ≤ c) && decide (c ≤ 102))
    || (decide (65 ≤ c) && decide (c ≤ 70))

/-- Go's `unhex`. -/
def unhex (c : Nat) : Nat :=
  if 48 ≤ c ∧ c ≤ 57 then c - 48
  else if 97 ≤ c ∧ c ≤ 102 then c - 97 + 10
  else if 65 ≤ c ∧ c ≤ 70 then c - 65 + 10
  else 0

/-- Go's `url.QueryUnescape`: `%XX` becomes the byte `XX`, `+` a space; a `%` that is
not followed by two hex digits is an error (`none`). -/
def QueryUnescape : GoString → Option GoString
  | [] => some []
  | c :: rest =>
    if c = 37 then
      match rest with
      | a :: b :: rest2 =>
        if ishex a && ishex b then
          (QueryUnescape rest2).map fun t => (unhex a * 16 + unhex b) :: t
        else none
      | _ => none
    else if c = 43 then (QueryUnescape rest).map fun t => 32 :: t
    else (QueryUnescape rest).map fun t => c :: t

/-- One turn of the loop of `url.ParseQuery` on the segment `seg` between two `&`:
a segment with a semicolon, an empty segment and a segment that does not unescape
are skipped; otherwise the value is appended under the key. -/
def parseSegment (m : Values) (seg : GoString) : Values :=
  if 59 ∈ seg then m
  else if seg = [] then m
  else
    match QueryUnescape (cut 61 seg).1, QueryUnescape (cut 61 seg).2 with
    | some key, some value => Values.Add m key value
    | _, _ => m

/-- Go's `url.ParseQuery`, with the error dropped as `URL.Query` does. -/
def ParseQuery (query : GoString) : Values := (splitOn 38 query).foldl parseSegment []

/-- The keys of the values in the order of `slices.Sort`. -/
def sortedKeys (v : Values) : List GoString :=
  List.insertionSort (fun a b => strLe a b = true) (mapKeys v)

/-- The `(key, value)` pairs that `Values.Encode` writes, in the order it writes them:
keys in sorted order, the values of one key in their stored order. -/
def Values.entries (v : Values) : List (GoString × GoString) :=
  (sortedKeys v).flatMap fun k => ((mapGet v k).getD []).map fun x => (k, x)

/-- Go's `Values.Encode`: `key=value` with both sides escaped, joined by `&`. -/
def Values.Encode (v : Values) : GoString :=
  join [38] ((Values.entries v).map fun kv => QueryEscape kv.1 ++ [61] ++ QueryEscape kv.2)

/-! ## `net/http`: headers, requests -/

/-- Go's `http.Header`, a `map[string][]string`. -/
abbrev Header := List (GoString × List GoString)

/-- Go's `validHeaderFieldByte`: the token characters of RFC 7230. -/
def validHeaderFieldByte (c : Nat) : Bool :=
  isAlnum c || decide (c ∈ [33, 35, 36, 37, 38, 39, 42, 43, 45, 46, 94, 95, 96, 124, 126])

/-- The canonicalising loop of `canonicalMIMEHeaderKey`: upper case for the first
letter and for a letter after a dash, lower case elsewhere. -/
def canonLoop : Bool → GoString → GoString
  | _, [] => []
  | upper, c :: s =>
    let d := if upper ∧ 97 ≤ c ∧ c ≤ 122 then c - 32
             else if ¬ upper ∧ 65 ≤ c ∧ c ≤ 90 then c + 32 else c
    d :: canonLoop (d == 45) s

/-- Go's `textproto.CanonicalMIMEHeaderKey`: a key with a byte that is not a token
character is returned unchanged. -/
def CanonicalMIMEHeaderKey (s : GoString) : GoString :=
  if s.all validHeaderFieldByte then canonLoop true s else s

/-- The method `Header.Set`: `h[CanonicalMIMEHeaderKey(key)] = []string{value}`. -/
def Header.Set (h : Header) (key value : GoString) : Header :=
  mapPut h (CanonicalMIMEHeaderKey key) [value]

/-- The method `Header.Values`: the values stored under the canonical form of `key`. -/
def Header.Values (h : Header) (key : GoString) : List GoString :=
  (mapGet h (CanonicalMIMEHeaderKey key)).getD []

/-- The method `Header.Get`: the first value stored under the canonical form of `key`,
the empty string when there is none. -/
def Header.Get (h : Header) (key : GoString) : GoString :=
  match Header.Values h key with
  | [] => []
  | v :: _ => v

/-- Go's `error`: a `*url.Error` with its three fields, a `tls.RecordHeaderError` with
its message and its record header, the error `failed to parse Location header` of
`net/http` with the header and its cause, and an error of any other type, by its
message. -/
inductive Error where
  | text (message : GoString)
  | url (Op URL : GoString) (Err : Error)
  | location (loc : GoString) (Err : Error)
  | tlsRecordHeader (Msg : GoString) (RecordHeader : List Nat)
deriving DecidableEq, Repr

/-- Go's `url.URL`. `Loc` stands for the components before the query (scheme,
authority, path), which this package never reads or writes. -/
structure URL where
  Loc : GoString
  RawQuery : GoString
  Fragment : GoString
  ForceQuery : Bool := false
deriving DecidableEq, Repr

/-- The method `URL.Query`. -/
def URL.Query (u : URL) : Values := ParseQuery u.RawQuery

/-- The method `URL.String`, for a URL whose components before the query and whose
fragment print as they were written: a `?` and the query when the query is not empty
or forced, a `#` and the fragment when there is one. -/
def URL.String (u : URL) : GoString :=
  u.Loc ++ (if u.ForceQuery = true ∨ u.RawQuery ≠ [] then 63 :: u.RawQuery else [])
    ++ (if u.Fragment ≠ [] then 35 :: u.Fragment else [])

/-- Go's `http.Request`, with the fields this package sets. -/
structure Request where
  Method : GoString
  URL : Service.URL
  Header : Service.Header
  Body : List Nat
deriving DecidableEq, Repr

/-- Go's `validMethod`: a non-empty token. -/
def validMethod (method : GoString) : Bool :=
  decide (method ≠ []) && method.all validHeaderFieldByte

/-- Go's `http.NewRequestWithContext(ctx, method, url, body)` for a non-nil context:
the pair of the request (nil on failure) and the error (nil on success). -/
def NewRequestWithContext (parse : GoString → Except Error URL)
    (method url : GoString) (body : List Nat) : Option Request × Option Error :=
  let method := if method = [] then str "GET" else method
  if validMethod method then
    match parse url with
    | .error e => (none, some e)
    | .ok u => (some { Method := method, URL := u, Header := [], Body := body }, none)
  else (none, some (.text (str "net/http: invalid method")))

/-- Control bytes, Go's `stringContainsCTLByte`. -/
def isCTL (c : Nat) : Bool := decide (c < 32) || c == 127

/-- The part of `url.Parse` used on examples: the fragment is cut at the first `#`,
a control byte before it is an error (a `*url.Error` of the operation `parse`), and
the query is cut at the first `?`, which forces an empty query when it is the only
`?` and the last byte. The further checks of `url.Parse` (scheme, authority, escapes)
are not in this parser. -/
def urlParse (rawURL : GoString) : Except Error URL :=
  if ((cut 35 rawURL).1).any isCTL then
    .error (.url (str "parse") (cut 35 rawURL).1
      (.text (str "net/url: invalid control character in URL")))
  else
    .ok { Loc := (cut 63 (cut 35 rawURL).1).1
          RawQuery := (cut 63 (cut 35 rawURL).1).2
          Fragment := (cut 35 rawURL).2
          ForceQuery := decide ((cut 35 rawURL).1.getLast? = some 63)
            && decide ((cut 35 rawURL).1.count 63 = 1) }

/-! ## `fmt` -/

/-- A value of type `interface{}` in a parameter map, by its dynamic type: a string,
an integer, a boolean, nil, a `[]string`, or a value of any other type, which is given
by the text `%v` prints for it. -/
inductive Any where
  | string (s : GoString)
  | int (n : Int)
  | bool (b : Bool)
  | nil
  | strings (vt : List GoString)
  | other (rendered : GoString)
deriving DecidableEq, Repr

/-- Go's `fmt.Sprintf("%v", v)`. -/
def Sprintf : Any → GoString
  | .string s => s
  | .int n => str (toString n)
  | .bool b => if b then str "true" else str "false"
  | .nil => str "<nil>"
  | .strings vt => [91] ++ join [32] vt ++ [93]
  | .other rendered => rendered

/-! ## `net/http`: the client -/

/-- Go's `http.Response`, with the fields `Client.Do` reads. `RequestURL` is the URL of
`resp.Request`, nil when the transport has not set it. -/
structure Response where
  StatusCode : Nat
  Header : Service.Header
  Body : List Nat
  RequestURL : Option URL
deriving DecidableEq, Repr

/-- Go's `http.Client` as `NewHTTPService` builds it: only the transport is set, so
there is no cookie jar, no timeout, and the default redirect policy applies. The
transport is a `RoundTripper`: it answers a request with a response or with an
error. -/
structure Client where
  Transport : Request → Except Error Response

/-- The two steps of `Client.do` that build the next hop of a redirect from parts of
the URL this model does not hold: `resolve` is the method `URL.Parse`, the location
resolved against the URL of the request, and `header` gives the headers of the next
request from the requests sent so far and the next URL (the headers of the first
request that may be copied, `makeHeadersCopier`, and the `Referer`,
`refererForURL`). -/
structure Redirect where
  resolve : URL → GoString → Except Error URL
  header : List Request → URL → Service.Header

/-- Go's `urlErrorOp`: the method with its first byte kept and the rest in lower
case. -/
def urlErrorOp (method : GoString) : GoString :=
  match method with
  | [] => str "Get"
  | c :: rest =>
    if method.all (fun b => decide (32 ≤ b) && decide (b ≤ 126)) then
      c :: rest.map fun b => if 65 ≤ b ∧ b ≤ 90 then b + 32 else b
    else method

/-- The error `send` returns for the error of the transport: the same error, except
that a bad TLS record header that reads `HTTP/` becomes `ErrSchemeMismatch`. -/
def sendError : Error → Error
  | .tlsRecordHeader msg hdr =>
    if hdr = str "HTTP/" then .text (str "http: server gave HTTP response to HTTPS client")
    else .tlsRecordHeader msg hdr
  | e => e

/-- Go's `redirectBehavior`, for a request that has `GetBody` whenever it has a body,
as the requests of `http.NewRequestWithContext` over a byte buffer have: `none` when
the status is not a redirect, else the method of the next request and whether it
repeats the body. -/
def redirectBehavior (reqMethod : GoString) (statusCode : Nat) : Option (GoString × Bool) :=
  if statusCode = 301 ∨ statusCode = 302 ∨ statusCode = 303 then
    some (if reqMethod ≠ str "GET" ∧ reqMethod ≠ str "HEAD" then str "GET" else reqMethod,
      false)
  else if statusCode = 307 ∨ statusCode = 308 then some (reqMethod, true)
  else none

/-- What one call of `Client.Do` did: the requests it handed to the transport, in
order, and the pair it returned. -/
structure Sent where
  sent : List Request
  result : Option Response × Option Error
deriving DecidableEq, Repr

/-- How one turn of the loop of `Client.do` ends: with the pair to return, or with the
next request, not yet checked against the redirect policy, together with the response
and the location it comes from. -/
inductive Hop where
  | done (result : Option Response × Option Error)
  | next (req : Request) (resp : Response) (loc : GoString)
deriving DecidableEq, Repr

/-- One turn of the loop of `Client.do` for a request URL without user information:
`first` is the request `Do` was called with, `reqs` the requests sent before, `req`
the request to send now. The error of the transport is returned in a `*url.Error`; a
response that is not a redirect, or a redirect without a `Location`, is returned as
it is; for a redirect the next request is built. -/
def Client.hop (lib : Redirect) (c : Client) (first : Request) (reqs : List Request)
    (req : Request) : Hop :=
  match c.Transport req with
  | .error e =>
    .done (none, some (.url (urlErrorOp first.Method) (URL.String req.URL) (sendError e)))
  | .ok resp =>
    match redirectBehavior req.Method resp.StatusCode with
    | none => .done (some resp, none)
    | some (redirectMethod, includeBody) =>
      if Header.Get resp.Header (str "Location") = [] then .done (some resp, none)
      else
        match lib.resolve req.URL (Header.Get resp.Header (str "Location")) with
        | .error e =>
          .done (none, some (.url (urlErrorOp first.Method)
            (URL.String (resp.RequestURL.getD req.URL))
            (.location (Header.Get resp.Header (str "Location")) e)))
        | .ok u =>
          .next
            { Method := redirectMethod
              URL := u
              Header := lib.header (reqs ++ [req]) u
              Body := if includeBody = true then first.Body else [] }
            resp (Header.Get resp.Header (str "Location"))

/-- The loop of `Client.do`. `n` is the number of redirects the default policy still
allows, ten less the number of requests sent when `req` has been sent; at zero the
next hop is refused with `stopped after 10 redirects` and the last response is
returned with that error. -/
def Client.loop (lib : Redirect) (c : Client) (first : Request) :
    Nat → List Request → Request → Sent
  | 0, reqs, req =>
    match Client.hop lib c first reqs req with
    | .done result => { sent := reqs ++ [req], result := result }
    | .next _ resp loc =>
      { sent := reqs ++ [req]
        result := (some resp, some (.url (urlErrorOp first.Method) loc
          (.text (str "stopped after 10 redirects")))) }
  | n + 1, reqs, req =>
    match Client.hop lib c first reqs req with
    | .done result => { sent := reqs ++ [req], result := result }
    | .next nextReq _ _ => Client.loop lib c first n (reqs ++ [req]) nextReq

/-- The method `Client.Do`. -/
def Client.Do (lib : Redirect) (c : Client) (req : Request) : Sent :=
  Client.loop lib c req 9 [] req

/-! ## The package `service` -/

/-- The outcome of a statement that may dereference a nil pointer. -/
inductive Exec (α : Type) where
  | ok (a : α)
  | crash
deriving DecidableEq, Repr

/-- The struct `httpService`: the embedded client, by its method `Do`, and the base
URL. `ρ` is the type of responses. -/
structure httpService (ρ : Type) where
  Do : Request → Option ρ × Option Error
  url : GoString

/-- The function `NewHTTPService`: the client is an `http.Client` with the given
transport, which stands for `otelhttp.NewTransport(http.DefaultTransport)`, and with
no other field set; its method `Do` is `Client.Do`. -/
def NewHTTPService (lib : Redirect) (transport : Request → Except Error Response)
    (serviceAddress : GoString) : httpService Response :=
  { Do := fun req => (Client.Do lib { Transport := transport } req).result
    url := serviceAddress }

/-- One turn of the outer loop of `encodeQueryParameters`, on the entry `(k, v)`. -/
def setParam (q : Values) (kv : GoString × Any) : Values :=
  match kv.2 with
  | .strings vt => vt.foldl (fun q val => Values.Set q kv.1 val) q
  | v => Values.Set q kv.1 (Sprintf v)

/-- The values `q` of `encodeQueryParameters` when the loop over `params` has ended. -/
def queryValues (u : URL) (params : List (GoString × Any)) : Values :=
  params.foldl setParam (URL.Query u)

/-- The function `encodeQueryParameters`. `req.URL` on a nil request is a nil
dereference. -/
def encodeQueryParameters (req : Option Request) (params : List (GoString × Any)) :
    Exec Request :=
  match req with
  | none => .crash
  | some r => .ok { r with URL := { r.URL with RawQuery := Values.Encode (queryValues r.URL params) } }

/-- The function `addHeadersToRequest`. `req.Header` on a nil request is a nil
dereference, reached when the map has an entry. -/
def addHeadersToRequest (req : Option Request) (headers : List (GoString × GoString)) :
    Exec (Option Request) :=
  match req, headers with
  | none, [] => .ok none
  | none, _ :: _ => .crash
  | some r, hs =>
    .ok (some (hs.foldl (fun r kv => { r with Header := Header.Set r.Header kv.1 kv.2 }) r))

/-- What one call did: the URL string it named the span after and built the request
from, the requests it handed to `Do` in order, and the pair it returned (`none` when
the call ended in a nil dereference). -/
structure Run (ρ : Type) where
  uri : GoString
  calls : List Request
  result : Option (Option ρ × Option Error)

/-- Lines 35 to 38 and 60 to 63: headers, query parameters, `Do`. -/
def dispatch {ρ : Type} (h : httpService ρ) (uri : GoString) (req : Option Request)
    (params : List (GoString × Any)) (headers : List (GoString × GoString)) : Run ρ :=
  match addHeadersToRequest req headers with
  | .crash => { uri := uri, calls := [], result := none }
  | .ok req1 =>
    match encodeQueryParameters req1 params with
    | .crash => { uri := uri, calls := [], result := none }
    | .ok req2 => { uri := uri, calls := [req2], result := some (h.Do req2) }

/-- The method `GetWithHeaders`. -/
def GetWithHeaders {ρ : Type} (parse : GoString → Except Error URL) (h : httpService ρ)
    (path : GoString) (params : List (GoString × Any))
    (headers : List (GoString × GoString)) : Run ρ :=
  let uri := h.url ++ str "/" ++ path
  let req := (NewRequestWithContext parse (str "GET") uri []).1
  dispatch h uri req params headers

/-- The method `Get`. -/
def Get {ρ : Type} (parse : GoString → Except Error URL) (h : httpService ρ)
    (path : GoString) (params : List (GoString × Any)) : Run ρ :=
  GetWithHeaders parse h path params []

/-- The method `PostWithHeaders`. -/
def PostWithHeaders {ρ : Type} (parse : GoString → Except Error URL) (h : httpService ρ)
    (path : GoString) (params : List (GoString × Any)) (body : List Nat)
    (headers : List (GoString × GoString)) : Run ρ :=
  let uri := if path = [] then h.url else h.url ++ str "/" ++ path
  let req := (NewRequestWithContext parse (str "POST") uri body).1
  dispatch h uri req params headers

/-- The method `Post`. -/
def Post {ρ : Type} (parse : GoString → Except Error URL) (h : httpService ρ)
    (path : GoString) (params : List (GoString × Any)) (body : List Nat) : Run ρ :=
  PostWithHeaders parse h path params body []

/-- The next hop of the examples, for a redirect to an absolute URL that stays on one
host over plain http, from a request without a `Referer`: the location is parsed as it
is, every header of the first request is copied, and the `Referer` is the URL of the
request before. -/
def plainRedirect : Redirect :=
  { resolve := fun _ loc => urlParse loc
    header := fun reqs _ =>
      match reqs.head?, reqs.getLast? with
      | some first, some last => Header.Set first.Header (str "Referer") (URL.String last.URL)
      | _, _ => [] }

/-- A transport for examples: it answers every request with the status 200 and the
body `ok`. -/
def answering : Request → Except Error Response := fun r =>
  .ok { StatusCode := 200, Header := [], Body := str "ok", RequestURL := some r.URL }

/-- The client of the examples, `NewHTTPService("http://svc")` over the answering
transport. -/
def svc : httpService Response := NewHTTPService plainRedirect answering (str "http://svc")

/-- A request of the examples, as `http.NewRequest("GET", "http://svc/x", nil)` builds it. -/
def req0 : Request :=
  { Method := str "GET"
    URL := { Loc := str "http://svc/x", RawQuery := [], Fragment := [] }
    Header := []
    Body := [] }

/-! ## Auxiliary definitions for the proofs -/

/-- The value the loop leaves under the key of an entry with value `v`: the last
element of a sequence of strings (none when the sequence is empty), the rendering of
any other value. -/
def lastSet : Any → Option GoString
  | .strings vt => vt.getLast?
  | v => some (Sprintf v)

/-- The assignments the loop makes, as map entries. -/
def assignments (params : List (GoString × Any)) : List (GoString × List GoString) :=
  params.filterMap fun kv => (lastSet kv.2).map fun x => (kv.1, [x])

/-- Every element of the string is a byte. -/
def isBytes (s : GoString) : Bool := s.all fun c => decide (c < 256)

/-- Every string inside the value is made of bytes. -/
def anyBytes : Any → Bool
  | .string s => isBytes s
  | .strings vt => vt.all isBytes
  | .other rendered => isBytes rendered
  | _ => true

/-- Every key and every string of the parameter map is made of bytes. -/
def paramsBytes (params : List (GoString × Any)) : Bool :=
  params.all fun kv => isBytes kv.1 && anyBytes kv.2

/-- Every key and every value of the map is made of bytes. -/
def valuesBytes (v : Values) : Bool :=
  v.all fun kv => isBytes kv.1 && kv.2.all isBytes

/-! ## Lemmas: the order on strings -/

theorem strLe_refl (a : GoString) : strLe a a = true := by
  induction a with
  | nil => rfl
  | cons x s ih => simp [strLe, ih]

theorem strLe_total (a b : GoString) : strLe a b = true ∨ strLe b a = true := by
  induction a generalizing b with
  | nil => left; rfl
  | cons x s ih =>
    cases b with
    | nil => right; rfl
    | cons y t =>
      simp only [strLe, Bool.or_eq_true, Bool.and_eq_true, decide_eq_true_eq]
      rcases Nat.lt_trichotomy x y with h | h | h
      · left; left; exact h
      · rcases ih t with h2 | h2
        · left; right; exact ⟨h, h2⟩
        · right; right; exact ⟨h.symm, h2⟩
      · right; left; exact h

theorem strLe_trans {a b c : GoString} (hab : strLe a b = true) (hbc : strLe b c = true) :
    strLe a c = true := by
  induction a generalizing b c with
  | nil => rfl
  | cons x s ih =>
    cases b with
    | nil => simp [strLe] at hab
    | cons y t =>
      cases c with
      | nil => simp [strLe] at hbc
      | cons z r =>
        simp only [strLe, Bool.or_eq_true, Bool.and_eq_true, decide_eq_true_eq] at hab hbc ⊢
        rcases hab with h1 | ⟨h1, h2⟩
        · rcases hbc with h3 | ⟨h3, _⟩
          · left; omega
          · left; omega
        · rcases hbc with h3 | ⟨h3, h4⟩
          · left; omega
          · right; exact ⟨h1.trans h3, ih h2 h4⟩

theorem strLe_antisymm {a b : GoString} (hab : strLe a b = true) (hba : strLe b a = true) :
    a = b := by
  induction a generalizing b with
  | nil =>
    cases b with
    | nil => rfl
    | cons y t => simp [strLe] at hba
  | cons x s ih =>
    cases b with
    | nil => simp [strLe] at hab
    | cons y t =>
      simp only [strLe, Bool.or_eq_true, Bool.and_eq_true, decide_eq_true_eq] at hab hba
      rcases hab with h1 | ⟨h1, h2⟩
      · rcases hba with h3 | ⟨h3, _⟩ <;> omega
      · rcases hba with h3 | ⟨_, h4⟩
        · omega
        · rw [h1, ih h2 h4]

instance strLe_isTotal : IsTotal GoString (fun a b => strLe a b = true) := ⟨strLe_total⟩

instance strLe_isTrans : IsTrans GoString (fun a b => strLe a b = true) :=
  ⟨fun _ _ _ => strLe_trans⟩

instance strLe_isAntisymm : IsAntisymm GoString (fun a b => strLe a b = true) :=
  ⟨fun _ _ => strLe_antisymm⟩

/-! ## Lemmas: maps -/

section MapLemmas

variable {κ ν : Type} [DecidableEq κ]

theorem mapGet_mapPut_self (m : List (κ × ν)) (k : κ) (x : ν) :
    mapGet (mapPut m k x) k = some x := by
  induction m with
  | nil => simp [mapPut, mapGet]
  | cons p m ih =>
    obtain ⟨a, y⟩ := p
    by_cases h : a = k
    · simp [mapPut, mapGet, h]
    · simp [mapPut, mapGet, h, ih]

theorem mapGet_mapPut_ne (m : List (κ × ν)) {k j : κ} (x : ν) (h : j ≠ k) :
    mapGet (mapPut m k x) j = mapGet m j := by
  induction m with
  | nil => simp [mapPut, mapGet, Ne.symm h]
  | cons p m ih =>
    obtain ⟨a, y⟩ := p
    by_cases hak : a = k
    · subst hak
      simp [mapPut, mapGet, Ne.symm h]
    · by_cases haj : a = j
      · subst haj
        simp [mapPut, mapGet, hak]
      · simp [mapPut, mapGet, hak, haj, ih]

theorem mapPut_mapPut_same (m : List (κ × ν)) (k : κ) (x y : ν) :
    mapPut (mapPut m k x) k y = mapPut m k y := by
  induction m with
  | nil => simp [mapPut]
  | cons p m ih =>
    obtain ⟨a, z⟩ := p
    by_cases h : a = k
    · simp [mapPut, h]
    · simp [mapPut, h, ih]

theorem mem_mapKeys_mapPut (m : List (κ × ν)) (k j : κ) (x : ν) :
    j ∈ mapKeys (mapPut m k x) ↔ j = k ∨ j ∈ mapKeys m := by
  induction m with
  | nil => simp [mapPut, mapKeys]
  | cons p m ih =>
    obtain ⟨a, y⟩ := p
    by_cases h : a = k
    · subst h
      simp [mapPut, mapKeys]
    · simp only [mapKeys] at ih
      simp only [mapPut, h, if_false, mapKeys, List.map_cons, List.mem_cons, ih]
      tauto

theorem nodup_mapKeys_mapPut {m : List (κ × ν)} (hm : (mapKeys m).Nodup) (k : κ) (x : ν) :
    (mapKeys (mapPut m k x)).Nodup := by
  induction m with
  | nil => simp [mapPut, mapKeys]
  | cons p m ih =>
    obtain ⟨a, y⟩ := p
    have hm2 : a ∉ mapKeys m ∧ (mapKeys m).Nodup := by
      simpa [mapKeys] using hm
    by_cases h : a = k
    · simpa [mapPut, h, mapKeys] using hm
    · have h3 : a ∉ mapKeys (mapPut m k x) := by
        rw [mem_mapKeys_mapPut]
        intro hc
        rcases hc with hc | hc
        · exact h hc
        · exact hm2.1 hc
      have h4 := ih hm2.2
      simp only [mapPut, h, if_false]
      simp only [mapKeys, List.map_cons, List.nodup_cons]
      exact ⟨h3, h4⟩

theorem mapGet_eq_none_iff (m : List (κ × ν)) (k : κ) :
    mapGet m k = none ↔ k ∉ mapKeys m := by
  induction m with
  | nil => simp [mapGet, mapKeys]
  | cons p m ih =>
    obtain ⟨a, y⟩ := p
    by_cases h : a = k
    · simp [mapGet, mapKeys, h]
    · simp only [mapKeys] at ih
      simp [mapGet, mapKeys, h, ih, Ne.symm h]

theorem mapGet_eq_some_iff {m : List (κ × ν)} (hm : (mapKeys m).Nodup) (k : κ) (x : ν) :
    mapGet m k = some x ↔ (k, x) ∈ m := by
  induction m with
  | nil => simp [mapGet]
  | cons p m ih =>
    obtain ⟨a, y⟩ := p
    have hm2 : a ∉ mapKeys m ∧ (mapKeys m).Nodup := by
      simpa [mapKeys] using hm
    by_cases h : a = k
    · subst h
      have hno : (a, x) ∉ m := fun hc => hm2.1 (List.mem_map_of_mem Prod.fst hc)
      simp [mapGet, hno]
      exact eq_comm
    · have : ¬ (k = a) := fun hc => h hc.symm
      simp [mapGet, h, ih hm2.2, this]

theorem mapGet_perm {l₁ l₂ : List (κ × ν)} (hp : l₁.Perm l₂) (hnd : (mapKeys l₁).Nodup)
    (k : κ) : mapGet l₁ k = mapGet l₂ k := by
  have hnd2 : (mapKeys l₂).Nodup := (hp.map Prod.fst).nodup_iff.mp hnd
  cases h : mapGet l₂ k with
  | none =>
    rw [mapGet_eq_none_iff] at h ⊢
    intro hc
    exact h ((hp.map Prod.fst).mem_iff.mp hc)
  | some x =>
    rw [mapGet_eq_some_iff hnd2] at h
    rw [mapGet_eq_some_iff hnd]
    exact hp.mem_iff.mpr h

theorem filter_key_eq {m : List (κ × ν)} (hm : (mapKeys m).Nodup) (k : κ) :
    m.filter (fun e => decide (e.1 = k)) =
      match mapGet m k with
      | some x => [(k, x)]
      | none => [] := by
  induction m with
  | nil => simp [mapGet]
  | cons p m ih =>
    obtain ⟨a, y⟩ := p
    have hm2 : a ∉ mapKeys m ∧ (mapKeys m).Nodup := by
      simpa [mapKeys] using hm
    by_cases h : a = k
    · subst h
      have hnone : mapGet m a = none := (mapGet_eq_none_iff m a).mpr hm2.1
      have ih2 := ih hm2.2
      rw [hnone] at ih2
      simp [mapGet, List.filter_cons, ih2]
    · simp [mapGet, List.filter_cons, h, ih hm2.2]

/-- The map after the assignments `m[k] = x` for the entries `(k, x)` of `l` in order. -/
theorem mapGet_foldl_mapPut (l : List (κ × ν)) (hl : (mapKeys l).Nodup) (m : List (κ × ν))
    (k : κ) :
    mapGet (l.foldl (fun m e => mapPut m e.1 e.2) m) k =
      match mapGet l k with
      | some x => some x
      | none => mapGet m k := by
  induction l generalizing m with
  | nil => simp [mapGet]
  | cons p l ih =>
    obtain ⟨a, y⟩ := p
    have hl2 : a ∉ mapKeys l ∧ (mapKeys l).Nodup := by
      simpa [mapKeys] using hl
    rw [List.foldl_cons, ih hl2.2]
    by_cases h : a = k
    · subst h
      have hnone : mapGet l a = none := (mapGet_eq_none_iff l a).mpr hl2.1
      simp [hnone, mapGet, mapGet_mapPut_self]
    · simp only [mapGet, h, if_false]
      cases mapGet l k with
      | some x => rfl
      | none => exact mapGet_mapPut_ne m y (Ne.symm h)

theorem nodup_mapKeys_foldl_mapPut (l : List (κ × ν)) {m : List (κ × ν)}
    (hm : (mapKeys m).Nodup) :
    (mapKeys (l.foldl (fun m e => mapPut m e.1 e.2) m)).Nodup := by
  induction l generalizing m with
  | nil => exact hm
  | cons p l ih => exact ih (nodup_mapKeys_mapPut hm p.1 p.2)

end MapLemmas

/-! ## Lemmas: query values -/

theorem nodup_sortedKeys {v : Values} (hv : (mapKeys v).Nodup) : (sortedKeys v).Nodup :=
  (List.perm_insertionSort _ _).nodup_iff.mpr hv

theorem mem_sortedKeys (v : Values) (k : GoString) : k ∈ sortedKeys v ↔ k ∈ mapKeys v :=
  (List.perm_insertionSort _ _).mem_iff

theorem sorted_sortedKeys (v : Values) :
    (sortedKeys v).Sorted (fun a b => strLe a b = true) :=
  List.sorted_insertionSort _ _

/-- Two maps with the same contents have the same sorted keys. -/
theorem sortedKeys_congr {v w : Values} (hv : (mapKeys v).Nodup) (hw : (mapKeys w).Nodup)
    (h : ∀ k, mapGet v k = mapGet w k) : sortedKeys v = sortedKeys w := by
  have hmem : ∀ k, k ∈ mapKeys v ↔ k ∈ mapKeys w := by
    intro k
    have h1 := mapGet_eq_none_iff v k
    have h2 := mapGet_eq_none_iff w k
    rw [h k] at h1
    constructor
    · intro hk
      by_contra hc
      exact (h1.mp (h2.mpr hc)) hk
    · intro hk
      by_contra hc
      exact (h2.mp (h1.mpr hc)) hk
  have hperm : (mapKeys v).Perm (mapKeys w) := (List.perm_ext_iff_of_nodup hv hw).mpr hmem
  have hp2 : (sortedKeys v).Perm (sortedKeys w) :=
    ((List.perm_insertionSort _ _).trans hperm).trans (List.perm_insertionSort _ _).symm
  exact List.eq_of_perm_of_sorted hp2 (sorted_sortedKeys v) (sorted_sortedKeys w)

/-- What `Values.Encode` writes depends on the contents of the map only. -/
theorem entries_congr {v w : Values} (hv : (mapKeys v).Nodup) (hw : (mapKeys w).Nodup)
    (h : ∀ k, mapGet v k = mapGet w k) : Values.entries v = Values.entries w := by
  unfold Values.entries
  rw [sortedKeys_congr hv hw h]
  congr 1
  funext k
  rw [h k]

theorem filter_flatMap_key (f : GoString → List GoString) (k : GoString)
    (ks : List GoString) (hks : ks.Nodup) :
    (ks.flatMap fun a => (f a).map fun x => (a, x)).filter (fun e => decide (e.1 = k)) =
      if k ∈ ks then (f k).map fun x => (k, x) else [] := by
  induction ks with
  | nil => simp
  | cons a ks ih =>
    have h2 : a ∉ ks ∧ ks.Nodup := List.nodup_cons.mp hks
    rw [List.flatMap_cons, List.filter_append, ih h2.2]
    by_cases h : a = k
    · subst h
      have hall : ((f a).map fun x => (a, x)).filter (fun e => decide (e.1 = a)) =
          (f a).map fun x => (a, x) := by
        rw [List.filter_eq_self]
        intro e he
        rcases List.mem_map.mp he with ⟨x, _, rfl⟩
        simp
      rw [hall]
      simp [h2.1]
    · have hnone : ((f a).map fun x => (a, x)).filter (fun e => decide (e.1 = k)) = [] := by
        rw [List.filter_eq_nil_iff]
        intro e he
        rcases List.mem_map.mp he with ⟨x, _, rfl⟩
        simp [h]
      rw [hnone]
      have hk : (k ∈ a :: ks) ↔ k ∈ ks := by
        simp [List.mem_cons, Ne.symm h]
      simp only [hk, List.nil_append]

/-- The pairs written for the key `k` are the values stored under `k`, in order. -/
theorem entries_filter {v : Values} (hv : (mapKeys v).Nodup) (k : GoString) :
    (Values.entries v).filter (fun e => decide (e.1 = k)) =
      ((mapGet v k).getD []).map fun x => (k, x) := by
  unfold Values.entries
  rw [filter_flatMap_key (fun a => (mapGet v a).getD []) k (sortedKeys v) (nodup_sortedKeys hv)]
  by_cases hk : k ∈ sortedKeys v
  · simp [hk]
  · have hnone : mapGet v k = none :=
      (mapGet_eq_none_iff v k).mpr (fun hc => hk ((mem_sortedKeys v k).mpr hc))
    simp [hk, hnone]

theorem sorted_flatMap_keys (f : GoString → List GoString) (ks : List GoString)
    (hks : ks.Sorted (fun a b => strLe a b = true)) :
    ((ks.flatMap fun a => (f a).map fun x => (a, x)).map Prod.fst).Sorted
      (fun a b => strLe a b = true) := by
  induction ks with
  | nil => simp
  | cons a ks ih =>
    have h2 := List.sorted_cons.mp hks
    rw [List.flatMap_cons, List.map_append]
    unfold List.Sorted
    rw [List.pairwise_append]
    refine ⟨?_, ih h2.2, ?_⟩
    · rw [List.pairwise_map, List.pairwise_map]
      exact List.pairwise_of_forall (fun _ _ => strLe_refl a)
    · intro x hx y hy
      have hxa : x = a := by
        rcases List.mem_map.mp hx with ⟨e, he, rfl⟩
        rcases List.mem_map.mp he with ⟨z, _, rfl⟩
        rfl
      subst hxa
      rcases List.mem_map.mp hy with ⟨e, he, rfl⟩
      rcases List.mem_flatMap.mp he with ⟨b, hb, hb2⟩
      rcases List.mem_map.mp hb2 with ⟨z, _, rfl⟩
      exact h2.1 b hb

/-- The keys are written in sorted order. -/
theorem entries_sorted (v : Values) :
    ((Values.entries v).map Prod.fst).Sorted (fun a b => strLe a b = true) :=
  sorted_flatMap_keys _ _ (sorted_sortedKeys v)

theorem nodup_mapKeys_parseSegment {m : Values} (hm : (mapKeys m).Nodup) (seg : GoString) :
    (mapKeys (parseSegment m seg)).Nodup := by
  unfold parseSegment
  split
  · exact hm
  · split
    · exact hm
    · split
      · exact nodup_mapKeys_mapPut hm _ _
      · exact hm

theorem nodup_mapKeys_foldl_parseSegment (segs : List GoString) {m : Values}
    (hm : (mapKeys m).Nodup) : (mapKeys (segs.foldl parseSegment m)).Nodup := by
  induction segs generalizing m with
  | nil => exact hm
  | cons s segs ih => exact ih (nodup_mapKeys_parseSegment hm s)

/-- The map `URL.Query` returns has distinct keys. -/
theorem nodup_mapKeys_Query (u : URL) : (mapKeys (URL.Query u)).Nodup :=
  nodup_mapKeys_foldl_parseSegment _ (by simp [mapKeys])

/-! ## Lemmas: the loop of `encodeQueryParameters` -/

theorem foldl_Set (k : GoString) (vt : List GoString) (q : Values) :
    vt.foldl (fun q val => Values.Set q k val) q =
      match vt.getLast? with
      | some x => Values.Set q k x
      | none => q := by
  induction vt generalizing q with
  | nil => rfl
  | cons a vt ih =>
    rw [List.foldl_cons, ih]
    cases vt with
    | nil => rfl
    | cons b vt =>
      rw [List.getLast?_cons_cons]
      cases h : (b :: vt).getLast? with
      | none => simp at h
      | some x =>
        simp only [Values.Set]
        exact mapPut_mapPut_same q k [a] [x]

theorem setParam_eq (q : Values) (k : GoString) (v : Any) :
    setParam q (k, v) =
      match lastSet v with
      | some x => mapPut q k [x]
      | none => q := by
  cases v with
  | strings vt =>
    simp only [setParam, lastSet]
    rw [foldl_Set]
    cases vt.getLast? <;> rfl
  | string s => rfl
  | int n => rfl
  | bool b => rfl
  | nil => rfl
  | other t => rfl

theorem foldl_setParam (params : List (GoString × Any)) (q : Values) :
    params.foldl setParam q = (assignments params).foldl (fun m e => mapPut m e.1 e.2) q := by
  induction params generalizing q with
  | nil => rfl
  | cons p params ih =>
    obtain ⟨k, v⟩ := p
    rw [List.foldl_cons, ih, setParam_eq]
    unfold assignments
    rw [List.filterMap_cons]
    cases h : lastSet v with
    | none => simp
    | some x => simp

theorem mem_mapKeys_assignments {params : List (GoString × Any)} {k : GoString}
    (h : k ∈ mapKeys (assignments params)) : k ∈ mapKeys params := by
  unfold mapKeys assignments at h
  rcases List.mem_map.mp h with ⟨e, he, rfl⟩
  rcases List.mem_filterMap.mp he with ⟨p, hp, hpe⟩
  cases hl : lastSet p.2 with
  | none => simp [hl] at hpe
  | some x =>
    simp [hl] at hpe
    subst hpe
    exact List.mem_map_of_mem Prod.fst hp

theorem nodup_mapKeys_assignments {params : List (GoString × Any)}
    (h : (mapKeys params).Nodup) : (mapKeys (assignments params)).Nodup := by
  induction params with
  | nil => simp [assignments, mapKeys]
  | cons p params ih =>
    obtain ⟨k, v⟩ := p
    have h2 : k ∉ mapKeys params ∧ (mapKeys params).Nodup := by
      simpa [mapKeys] using h
    have hrest := ih h2.2
    have hcons : assignments ((k, v) :: params) =
        match lastSet v with
        | some x => (k, [x]) :: assignments params
        | none => assignments params := by
      unfold assignments
      rw [List.filterMap_cons]
      cases lastSet v <;> rfl
    rw [hcons]
    cases lastSet v with
    | none => exact hrest
    | some x =>
      simp only [mapKeys, List.map_cons, List.nodup_cons]
      exact ⟨fun hc => h2.1 (mem_mapKeys_assignments hc), hrest⟩

theorem mapGet_assignments {params : List (GoString × Any)} (h : (mapKeys params).Nodup)
    (k : GoString) :
    mapGet (assignments params) k =
      ((mapGet params k).bind lastSet).map fun x => [x] := by
  induction params with
  | nil => rfl
  | cons p params ih =>
    obtain ⟨a, v⟩ := p
    have h2 : a ∉ mapKeys params ∧ (mapKeys params).Nodup := by
      simpa [mapKeys] using h
    have hcons : assignments ((a, v) :: params) =
        match lastSet v with
        | some x => (a, [x]) :: assignments params
        | none => assignments params := by
      unfold assignments
      rw [List.filterMap_cons]
      cases lastSet v <;> rfl
    rw [hcons]
    by_cases hak : a = k
    · subst hak
      have hnone : mapGet (assignments params) a = none :=
        (mapGet_eq_none_iff _ a).mpr (fun hc => h2.1 (mem_mapKeys_assignments hc))
      cases hl : lastSet v with
      | none => simp [mapGet, hl, hnone]
      | some x => simp [mapGet, hl]
    · cases hl : lastSet v with
      | none => simp [mapGet, hak, ih h2.2]
      | some x => simp [mapGet, hak, ih h2.2]

/-- The contents of `q` when the loop of `encodeQueryParameters` has ended: under a
key of `params` whose value is not an empty sequence, the single value the loop set
last; under every other key, what the query of the URL had. -/
theorem mapGet_queryValues (u : URL) {params : List (GoString × Any)}
    (h : (mapKeys params).Nodup) (k : GoString) :
    mapGet (queryValues u params) k =
      match (mapGet params k).bind lastSet with
      | some x => some [x]
      | none => mapGet (URL.Query u) k := by
  unfold queryValues
  rw [foldl_setParam, mapGet_foldl_mapPut _ (nodup_mapKeys_assignments h),
    mapGet_assignments h]
  cases (mapGet params k).bind lastSet <;> rfl

theorem nodup_mapKeys_queryValues (u : URL) (params : List (GoString × Any)) :
    (mapKeys (queryValues u params)).Nodup := by
  unfold queryValues
  rw [foldl_setParam]
  exact nodup_mapKeys_foldl_mapPut _ (nodup_mapKeys_Query u)

/-! ## Lemmas: escaping and reading back -/

theorem upperhex_spec (n : Nat) (h : n < 16) :
    ishex (upperhex n) = true ∧ unhex (upperhex n) = n
      ∧ upperhex n ≠ 38 ∧ upperhex n ≠ 61 ∧ upperhex n ≠ 59 := by
  interval_cases n <;> decide

theorem not_shouldEscape {c : Nat} (h : shouldEscape c = false) :
    c ≠ 37 ∧ c ≠ 43 ∧ c ≠ 38 ∧ c ≠ 61 ∧ c ≠ 59 := by
  refine ⟨?_, ?_, ?_, ?_, ?_⟩ <;> (intro hc; subst hc; revert h; decide)

theorem QueryEscape_cons (c : Nat) (s : GoString) :
    QueryEscape (c :: s) = escapeByte c ++ QueryEscape s := by
  simp [QueryEscape]

theorem QueryUnescape_plain {c : Nat} (h1 : c ≠ 37) (h2 : c ≠ 43) (rest : GoString) :
    QueryUnescape (c :: rest) = (QueryUnescape rest).map fun t => c :: t := by
  rw [QueryUnescape.eq_def]
  simp [h1, h2]

theorem QueryUnescape_plus (rest : GoString) :
    QueryUnescape (43 :: rest) = (QueryUnescape rest).map fun t => 32 :: t := by
  rw [QueryUnescape.eq_def]
  simp

theorem QueryUnescape_hex {a b : Nat} (ha : ishex a = true) (hb : ishex b = true)
    (rest : GoString) :
    QueryUnescape (37 :: a :: b :: rest)
      = (QueryUnescape rest).map fun t => (unhex a * 16 + unhex b) :: t := by
  rw [QueryUnescape.eq_def]
  simp [ha, hb]

/-- Unescaping an escaped string gives the string back. -/
theorem QueryUnescape_QueryEscape (s : GoString) (hs : isBytes s = true) :
    QueryUnescape (QueryEscape s) = some s := by
  induction s with
  | nil => rfl
  | cons c s ih =>
    have hc : c < 256 ∧ isBytes s = true := by
      simpa [isBytes] using hs
    have ih2 := ih hc.2
    rw [QueryEscape_cons]
    unfold escapeByte
    by_cases hesc : shouldEscape c = true
    · by_cases h32 : c = 32
      · subst h32
        simp only [hesc, if_true, List.singleton_append]
        rw [QueryUnescape_plus, ih2]
        rfl
      · simp only [hesc, if_true, h32, if_false, List.cons_append, List.nil_append]
        have hhi := upperhex_spec (c / 16 % 16) (Nat.mod_lt _ (by decide))
        have hlo := upperhex_spec (c % 16) (Nat.mod_lt _ (by decide))
        rw [QueryUnescape_hex hhi.1 hlo.1, ih2, hhi.2.1, hlo.2.1]
        have : c / 16 % 16 * 16 + c % 16 = c := by omega
        simp [this]
    · have hesc2 : shouldEscape c = false := by simpa using hesc
      have hne := not_shouldEscape hesc2
      simp only [hesc2, Bool.false_eq_true, if_false, List.singleton_append]
      rw [QueryUnescape_plain hne.1 hne.2.1, ih2]
      rfl

/-- An escaped string has none of the separators `&`, `=`, `;`. -/
theorem not_mem_QueryEscape (s : GoString) {d : Nat} (hd : d = 38 ∨ d = 61 ∨ d = 59) :
    d ∉ QueryEscape s := by
  induction s with
  | nil => simp [QueryEscape]
  | cons c s ih =>
    rw [QueryEscape_cons, List.mem_append]
    intro hmem
    rcases hmem with hmem | hmem
    · unfold escapeByte at hmem
      by_cases hesc : shouldEscape c = true
      · by_cases h32 : c = 32
        · subst h32
          simp only [hesc, if_true, List.mem_singleton] at hmem
          omega
        · simp only [hesc, if_true, h32, if_false, List.mem_cons, List.mem_singleton,
            List.not_mem_nil, or_false] at hmem
          have hhi := upperhex_spec (c / 16 % 16) (Nat.mod_lt _ (by decide))
          have hlo := upperhex_spec (c % 16) (Nat.mod_lt _ (by decide))
          rcases hmem with hmem | hmem | hmem
          · omega
          · rw [hmem] at hd
            rcases hd with hd | hd | hd
            · exact hhi.2.2.1 hd
            · exact hhi.2.2.2.1 hd
            · exact hhi.2.2.2.2 hd
          · rw [hmem] at hd
            rcases hd with hd | hd | hd
            · exact hlo.2.2.1 hd
            · exact hlo.2.2.2.1 hd
            · exact hlo.2.2.2.2 hd
      · have hesc2 : shouldEscape c = false := by simpa using hesc
        have hne := not_shouldEscape hesc2
        simp only [hesc2, Bool.false_eq_true, if_false, List.mem_singleton] at hmem
        subst hmem
        rcases hd with hd | hd | hd
        · exact hne.2.2.1 hd
        · exact hne.2.2.2.1 hd
        · exact hne.2.2.2.2 hd
    · exact ih hmem

theorem cut_append (sep : Nat) (a b : GoString) (ha : sep ∉ a) :
    cut sep (a ++ sep :: b) = (a, b) := by
  induction a with
  | nil => simp [cut]
  | cons c a ih =>
    have hc : c ≠ sep ∧ sep ∉ a := by
      constructor
      · intro h
        exact ha (by simp [h])
      · intro h
        exact ha (List.mem_cons_of_mem _ h)
    simp [cut, hc.1, ih hc.2]

theorem splitOn_ne_nil (sep : Nat) (s : GoString) : splitOn sep s ≠ [] := by
  cases s with
  | nil => simp [splitOn]
  | cons c s =>
    unfold splitOn
    split
    · simp
    · split <;> simp

theorem splitOn_not_mem (sep : Nat) (a : GoString) (ha : sep ∉ a) : splitOn sep a = [a] := by
  induction a with
  | nil => rfl
  | cons c a ih =>
    have hc : c ≠ sep ∧ sep ∉ a := by
      constructor
      · intro h
        exact ha (by simp [h])
      · intro h
        exact ha (List.mem_cons_of_mem _ h)
    unfold splitOn
    simp [hc.1, ih hc.2]

theorem splitOn_append (sep : Nat) (a b : GoString) (ha : sep ∉ a) :
    splitOn sep (a ++ sep :: b) = a :: splitOn sep b := by
  induction a with
  | nil => simp [splitOn]
  | cons c a ih =>
    have hc : c ≠ sep ∧ sep ∉ a := by
      constructor
      · intro h
        exact ha (by simp [h])
      · intro h
        exact ha (List.mem_cons_of_mem _ h)
    rw [List.cons_append]
    simp only [splitOn, hc.1, if_false, ih hc.2]

/-- Splitting a joined list of segments without the separator gives the segments. -/
theorem splitOn_join (sep : Nat) (segs : List GoString) (hne : segs ≠ [])
    (hsegs : ∀ seg ∈ segs, sep ∉ seg) : splitOn sep (join [sep] segs) = segs := by
  induction segs with
  | nil => exact absurd rfl hne
  | cons a segs ih =>
    cases segs with
    | nil => exact splitOn_not_mem sep a (hsegs a (by simp))
    | cons b rest =>
      have ha : sep ∉ a := hsegs a (by simp)
      have ih2 := ih (by simp) (fun seg hseg => hsegs seg (List.mem_cons_of_mem _ hseg))
      simp only [join, List.append_assoc, List.singleton_append]
      rw [splitOn_append sep a _ ha, ih2]

theorem isBytes_iff (s : GoString) : isBytes s = true ↔ ∀ c ∈ s, c < 256 := by
  simp [isBytes]

theorem valuesBytes_iff (v : Values) :
    valuesBytes v = true ↔ ∀ kv ∈ v, isBytes kv.1 = true ∧ ∀ x ∈ kv.2, isBytes x = true := by
  simp [valuesBytes]

/-- Reading back one written pair appends the value under the key. -/
theorem parseSegment_encoded (m : Values) (k x : GoString) (hk : isBytes k = true)
    (hx : isBytes x = true) :
    parseSegment m (QueryEscape k ++ [61] ++ QueryEscape x) = Values.Add m k x := by
  have h59 : (59 : Nat) ∉ QueryEscape k ++ [61] ++ QueryEscape x := by
    simp only [List.mem_append, List.mem_singleton, not_or]
    exact ⟨⟨not_mem_QueryEscape k (Or.inr (Or.inr rfl)), by decide⟩,
      not_mem_QueryEscape x (Or.inr (Or.inr rfl))⟩
  have hne : QueryEscape k ++ [61] ++ QueryEscape x ≠ [] := by simp
  have hcut : cut 61 (QueryEscape k ++ [61] ++ QueryEscape x)
      = (QueryEscape k, QueryEscape x) := by
    rw [List.append_assoc, List.singleton_append]
    exact cut_append 61 _ _ (not_mem_QueryEscape k (Or.inr (Or.inl rfl)))
  unfold parseSegment
  rw [if_neg h59, if_neg hne, hcut]
  simp only [QueryUnescape_QueryEscape k hk, QueryUnescape_QueryEscape x hx]

theorem foldl_parseSegment_encoded (es : List (GoString × GoString))
    (hes : ∀ e ∈ es, isBytes e.1 = true ∧ isBytes e.2 = true) (m : Values) :
    (es.map fun kv => QueryEscape kv.1 ++ [61] ++ QueryEscape kv.2).foldl parseSegment m
      = es.foldl (fun m e => Values.Add m e.1 e.2) m := by
  induction es generalizing m with
  | nil => rfl
  | cons e es ih =>
    have he := hes e (by simp)
    simp only [List.map_cons, List.foldl_cons]
    rw [parseSegment_encoded m e.1 e.2 he.1 he.2]
    exact ih (fun e2 he2 => hes e2 (List.mem_cons_of_mem _ he2)) _

/-- Reading back what was written for a list of pairs appends the values in order. -/
theorem ParseQuery_pairs (es : List (GoString × GoString))
    (hes : ∀ e ∈ es, isBytes e.1 = true ∧ isBytes e.2 = true) :
    ParseQuery (join [38] (es.map fun kv => QueryEscape kv.1 ++ [61] ++ QueryEscape kv.2))
      = es.foldl (fun m e => Values.Add m e.1 e.2) [] := by
  cases es with
  | nil => rfl
  | cons e es =>
    unfold ParseQuery
    rw [splitOn_join 38 _ (by simp)]
    · exact foldl_parseSegment_encoded _ hes []
    · intro seg hseg
      rcases List.mem_map.mp hseg with ⟨kv, _, rfl⟩
      simp only [List.mem_append, List.mem_singleton, not_or]
      exact ⟨⟨not_mem_QueryEscape kv.1 (Or.inl rfl), by decide⟩,
        not_mem_QueryEscape kv.2 (Or.inl rfl)⟩

theorem mapGet_Add (m : Values) (a x k : GoString) :
    (mapGet (Values.Add m a x) k).getD []
      = if a = k then (mapGet m k).getD [] ++ [x] else (mapGet m k).getD [] := by
  unfold Values.Add
  by_cases h : a = k
  · subst h
    simp [mapGet_mapPut_self]
  · simp [h, mapGet_mapPut_ne m _ (Ne.symm h)]

theorem index_foldl_Add (es : List (GoString × GoString)) (m : Values) (k : GoString) :
    (mapGet (es.foldl (fun m e => Values.Add m e.1 e.2) m) k).getD []
      = (mapGet m k).getD [] ++ (es.filter fun e => decide (e.1 = k)).map Prod.snd := by
  induction es generalizing m with
  | nil => simp
  | cons e es ih =>
    rw [List.foldl_cons, ih, mapGet_Add]
    by_cases h : e.1 = k
    · simp [h, List.filter_cons]
    · simp [h, List.filter_cons]

theorem entries_bytes {q : Values} (hb : valuesBytes q = true) :
    ∀ e ∈ Values.entries q, isBytes e.1 = true ∧ isBytes e.2 = true := by
  intro e he
  rw [valuesBytes_iff] at hb
  unfold Values.entries at he
  rcases List.mem_flatMap.mp he with ⟨k, hk, hkx⟩
  rcases List.mem_map.mp hkx with ⟨x, hx, rfl⟩
  have hk2 : k ∈ mapKeys q := (mem_sortedKeys q k).mp hk
  rcases List.mem_map.mp hk2 with ⟨kv, hkv, rfl⟩
  refine ⟨(hb kv hkv).1, ?_⟩
  cases hg : mapGet q kv.1 with
  | none => simp [hg] at hx
  | some vs =>
    simp only [hg, Option.getD_some] at hx
    have hmem : (kv.1, vs) ∈ q := by
      clear hx hk hk2 hkx he hb
      induction q with
      | nil => simp [mapGet] at hg
      | cons p q ih =>
        obtain ⟨a, y⟩ := p
        by_cases h : a = kv.1
        · simp only [mapGet, h, if_true, Option.some.injEq] at hg
          subst hg
          simp [h]
        · simp only [mapGet, h, if_false] at hg
          rcases List.mem_cons.mp hkv with hh | hh
          · rw [hh] at h
            exact absurd rfl h
          · exact List.mem_cons_of_mem _ (ih hh hg)
    exact (hb _ hmem).2 x hx

/-- The query string `Values.Encode` writes, read back by `url.ParseQuery`, has under
every key the values the map had. -/
theorem ParseQuery_Encode {q : Values} (hq : (mapKeys q).Nodup) (hb : valuesBytes q = true)
    (k : GoString) :
    (mapGet (ParseQuery (Values.Encode q)) k).getD [] = (mapGet q k).getD [] := by
  unfold Values.Encode
  rw [ParseQuery_pairs _ (entries_bytes hb), index_foldl_Add, entries_filter hq]
  simp [mapGet, Function.comp_def]

/-! ## Lemmas: the strings of the query are made of bytes -/

theorem valuesBytes_mapPut {m : Values} (hm : valuesBytes m = true) {k : GoString}
    (hk : isBytes k = true) {vs : List GoString} (hvs : ∀ x ∈ vs, isBytes x = true) :
    valuesBytes (mapPut m k vs) = true := by
  induction m with
  | nil =>
    rw [valuesBytes_iff]
    intro kv hkv
    simp only [mapPut, List.mem_singleton] at hkv
    subst hkv
    exact ⟨hk, hvs⟩
  | cons p m ih =>
    obtain ⟨a, y⟩ := p
    rw [valuesBytes_iff] at hm
    have hm2 : valuesBytes m = true := by
      rw [valuesBytes_iff]
      exact fun kv hkv => hm kv (List.mem_cons_of_mem _ hkv)
    have hp := hm (a, y) (by simp)
    by_cases h : a = k
    · rw [valuesBytes_iff]
      intro kv hkv
      simp only [mapPut, h, if_true, List.mem_cons] at hkv
      rcases hkv with hkv | hkv
      · subst hkv
        exact ⟨hk, hvs⟩
      · exact hm kv (List.mem_cons_of_mem _ hkv)
    · have ih2 := (valuesBytes_iff _).mp (ih hm2)
      rw [valuesBytes_iff]
      intro kv hkv
      simp only [mapPut, h, if_false, List.mem_cons] at hkv
      rcases hkv with hkv | hkv
      · subst hkv
        exact hp
      · exact ih2 kv hkv

theorem mapGet_bytes {m : Values} (hm : valuesBytes m = true) {k : GoString}
    {vs : List GoString} (hg : mapGet m k = some vs) : ∀ x ∈ vs, isBytes x = true := by
  induction m with
  | nil => simp [mapGet] at hg
  | cons p m ih =>
    obtain ⟨a, y⟩ := p
    rw [valuesBytes_iff] at hm
    by_cases h : a = k
    · simp only [mapGet, h, if_true, Option.some.injEq] at hg
      subst hg
      exact (hm (a, y) (by simp)).2
    · simp only [mapGet, h, if_false] at hg
      exact ih ((valuesBytes_iff _).mpr fun kv hkv => hm kv (List.mem_cons_of_mem _ hkv)) hg

theorem valuesBytes_Add {m : Values} (hm : valuesBytes m = true) {k x : GoString}
    (hk : isBytes k = true) (hx : isBytes x = true) :
    valuesBytes (Values.Add m k x) = true := by
  unfold Values.Add
  apply valuesBytes_mapPut hm hk
  intro y hy
  rcases List.mem_append.mp hy with hy | hy
  · cases hg : mapGet m k with
    | none => simp [hg] at hy
    | some vs =>
      simp only [hg, Option.getD_some] at hy
      exact mapGet_bytes hm hg y hy
  · simp only [List.mem_singleton] at hy
    subst hy
    exact hx

theorem unhex_le (c : Nat) : unhex c ≤ 15 := by
  unfold unhex
  split
  · omega
  · split
    · omega
    · split <;> omega

theorem QueryUnescape_bytes (s : GoString) : ∀ t, isBytes s = true →
    QueryUnescape s = some t → isBytes t = true := by
  induction s using QueryUnescape.induct with
  | case1 =>
    intro t _ ht
    simp only [QueryUnescape, Option.some.injEq] at ht
    subst ht
    rfl
  | case2 a b rest2 hab ih =>
    intro t hs ht
    have hab2 : ishex a = true ∧ ishex b = true := by simpa using hab
    rw [QueryUnescape_hex hab2.1 hab2.2] at ht
    have hs2 : isBytes rest2 = true := by
      rw [isBytes_iff] at hs ⊢
      exact fun c hc => hs c (by simp [hc])
    cases hr : QueryUnescape rest2 with
    | none => simp [hr] at ht
    | some t2 =>
      simp only [hr, Option.map_some', Option.some.injEq] at ht
      subst ht
      have ih2 := (isBytes_iff _).mp (ih t2 hs2 hr)
      rw [isBytes_iff]
      intro c hc
      rcases List.mem_cons.mp hc with hc | hc
      · have h1 := unhex_le a
        have h2 := unhex_le b
        omega
      · exact ih2 c hc
  | case3 a b rest2 hab =>
    intro t _ ht
    rw [QueryUnescape.eq_def] at ht
    simp [hab] at ht
  | case4 rest hrest =>
    intro t _ ht
    cases rest with
    | nil =>
      rw [QueryUnescape.eq_def] at ht
      simp at ht
    | cons a rest =>
      cases rest with
      | nil =>
        rw [QueryUnescape.eq_def] at ht
        simp at ht
      | cons b rest => exact absurd rfl (hrest a b rest)
  | case5 rest _ ih =>
    intro t hs ht
    rw [QueryUnescape_plus] at ht
    have hs2 : isBytes rest = true := by
      rw [isBytes_iff] at hs ⊢
      exact fun c hc => hs c (by simp [hc])
    cases hr : QueryUnescape rest with
    | none => simp [hr] at ht
    | some t2 =>
      simp only [hr, Option.map_some', Option.some.injEq] at ht
      subst ht
      have ih2 := (isBytes_iff _).mp (ih t2 hs2 hr)
      rw [isBytes_iff]
      intro c hc
      rcases List.mem_cons.mp hc with hc | hc
      · omega
      · exact ih2 c hc
  | case6 c rest hc hc2 ih =>
    intro t hs ht
    rw [QueryUnescape_plain hc hc2] at ht
    have hs1 : c < 256 := (isBytes_iff _).mp hs c (by simp)
    have hs2 : isBytes rest = true := by
      rw [isBytes_iff] at hs ⊢
      exact fun c hc => hs c (by simp [hc])
    cases hr : QueryUnescape rest with
    | none => simp [hr] at ht
    | some t2 =>
      simp only [hr, Option.map_some', Option.some.injEq] at ht
      subst ht
      have ih2 := (isBytes_iff _).mp (ih t2 hs2 hr)
      rw [isBytes_iff]
      intro d hd
      rcases List.mem_cons.mp hd with hd | hd
      · omega
      · exact ih2 d hd

theorem mem_cut (sep : Nat) (s : GoString) (c : Nat) :
    (c ∈ (cut sep s).1 → c ∈ s) ∧ (c ∈ (cut sep s).2 → c ∈ s) := by
  induction s with
  | nil => simp [cut]
  | cons d s ih =>
    by_cases h : d = sep
    · simp only [cut, h, if_true]
      exact ⟨fun hc => absurd hc (List.not_mem_nil c), fun hc => List.mem_cons_of_mem _ hc⟩
    · simp only [cut, h, if_false]
      constructor
      · intro hc
        rcases List.mem_cons.mp hc with hc | hc
        · simp [hc]
        · exact List.mem_cons_of_mem _ (ih.1 hc)
      · intro hc
        exact List.mem_cons_of_mem _ (ih.2 hc)

theorem mem_splitOn (sep : Nat) (s : GoString) :
    ∀ seg ∈ splitOn sep s, ∀ c ∈ seg, c ∈ s := by
  induction s with
  | nil =>
    intro seg hseg c hc
    simp only [splitOn, List.mem_singleton] at hseg
    subst hseg
    exact hc
  | cons d s ih =>
    intro seg hseg c hc
    by_cases h : d = sep
    · simp only [splitOn, h, if_true, List.mem_cons] at hseg
      rcases hseg with hseg | hseg
      · subst hseg
        exact absurd hc (List.not_mem_nil c)
      · exact List.mem_cons_of_mem _ (ih seg hseg c hc)
    · simp only [splitOn, h, if_false] at hseg
      cases hsp : splitOn sep s with
      | nil => exact absurd hsp (splitOn_ne_nil sep s)
      | cons seg0 segs =>
        rw [hsp] at hseg ih
        simp only [List.mem_cons] at hseg
        rcases hseg with hseg | hseg
        · subst hseg
          rcases List.mem_cons.mp hc with hc | hc
          · simp [hc]
          · exact List.mem_cons_of_mem _ (ih seg0 (by simp) c hc)
        · exact List.mem_cons_of_mem _ (ih seg (List.mem_cons_of_mem _ hseg) c hc)

theorem valuesBytes_parseSegment {m : Values} (hm : valuesBytes m = true) {seg : GoString}
    (hseg : isBytes seg = true) : valuesBytes (parseSegment m seg) = true := by
  unfold parseSegment
  split
  · exact hm
  · split
    · exact hm
    · have h1 : isBytes (cut 61 seg).1 = true := by
        rw [isBytes_iff] at hseg ⊢
        exact fun c hc => hseg c ((mem_cut 61 seg c).1 hc)
      have h2 : isBytes (cut 61 seg).2 = true := by
        rw [isBytes_iff] at hseg ⊢
        exact fun c hc => hseg c ((mem_cut 61 seg c).2 hc)
      split
      · rename_i key value hk hv
        exact valuesBytes_Add hm (QueryUnescape_bytes _ key h1 hk)
          (QueryUnescape_bytes _ value h2 hv)
      · exact hm

theorem valuesBytes_foldl_parseSegment (segs : List GoString)
    (hsegs : ∀ seg ∈ segs, isBytes seg = true) {m : Values} (hm : valuesBytes m = true) :
    valuesBytes (segs.foldl parseSegment m) = true := by
  induction segs generalizing m with
  | nil => exact hm
  | cons s segs ih =>
    exact ih (fun seg hseg => hsegs seg (List.mem_cons_of_mem _ hseg))
      (valuesBytes_parseSegment hm (hsegs s (by simp)))

theorem valuesBytes_ParseQuery {query : GoString} (hq : isBytes query = true) :
    valuesBytes (ParseQuery query) = true := by
  unfold ParseQuery
  have h0 : valuesBytes ([] : Values) = true := rfl
  apply valuesBytes_foldl_parseSegment _ _ h0
  intro seg hseg
  rw [isBytes_iff] at hq ⊢
  exact fun c hc => hq c (mem_splitOn 38 query seg hseg c hc)

theorem utf8Char_bytes (ch : Char) : ∀ c ∈ utf8Char ch, c < 256 := by
  have hv : ch.toNat < 1114112 := by
    have h := ch.valid
    have h2 : ch.toNat = ch.val.toNat := rfl
    rcases h with h | h
    · have : ch.val.toNat < 55296 := h
      omega
    · have : ch.val.toNat < 1114112 := h.2
      omega
  intro c hc
  unfold utf8Char at hc
  simp only at hc
  split at hc
  · simp only [List.mem_singleton] at hc
    omega
  · split at hc
    · simp only [List.mem_cons, List.mem_singleton, List.not_mem_nil, or_false] at hc
      omega
    · split at hc
      · simp only [List.mem_cons, List.mem_singleton, List.not_mem_nil, or_false] at hc
        omega
      · simp only [List.mem_cons, List.mem_singleton, List.not_mem_nil, or_false] at hc
        omega

theorem isBytes_str (s : String) : isBytes (str s) = true := by
  rw [isBytes_iff]
  intro c hc
  unfold str at hc
  rcases List.mem_flatMap.mp hc with ⟨ch, _, hch⟩
  exact utf8Char_bytes ch c hch

theorem lastSet_bytes {v : Any} (hv : anyBytes v = true) {x : GoString}
    (hx : lastSet v = some x) : isBytes x = true := by
  cases v with
  | strings vt =>
    simp only [lastSet] at hx
    simp only [anyBytes, List.all_eq_true] at hv
    exact hv x (List.mem_of_getLast?_eq_some hx)
  | string s =>
    simp only [lastSet, Sprintf, Option.some.injEq] at hx
    subst hx
    exact hv
  | int n =>
    simp only [lastSet, Sprintf, Option.some.injEq] at hx
    subst hx
    exact isBytes_str _
  | bool b =>
    simp only [lastSet, Sprintf, Option.some.injEq] at hx
    subst hx
    cases b <;> exact isBytes_str _
  | nil =>
    simp only [lastSet, Sprintf, Option.some.injEq] at hx
    subst hx
    exact isBytes_str _
  | other t =>
    simp only [lastSet, Sprintf, Option.some.injEq] at hx
    subst hx
    exact hv

theorem valuesBytes_queryValues {u : URL} (hu : isBytes u.RawQuery = true)
    {params : List (GoString × Any)} (hp : paramsBytes params = true) :
    valuesBytes (queryValues u params) = true := by
  unfold queryValues
  have h0 : valuesBytes (URL.Query u) = true := valuesBytes_ParseQuery hu
  generalize URL.Query u = q at h0
  induction params generalizing q with
  | nil => exact h0
  | cons p params ih =>
    obtain ⟨k, v⟩ := p
    have hp2 : (isBytes k = true ∧ anyBytes v = true) ∧ paramsBytes params = true := by
      simpa [paramsBytes] using hp
    rw [List.foldl_cons]
    apply ih hp2.2
    rw [setParam_eq]
    cases hl : lastSet v with
    | none => exact h0
    | some x =>
      apply valuesBytes_mapPut h0 hp2.1.1
      intro y hy
      simp only [List.mem_singleton] at hy
      subst hy
      exact lastSet_bytes hp2.1.2 hl

/-- The query string `encodeQueryParameters` writes, read back by `url.ParseQuery`,
has under every key the values the loop left there. -/
theorem Query_after_encode {u : URL} (hu : isBytes u.RawQuery = true)
    {params : List (GoString × Any)} (hp : paramsBytes params = true) (k : GoString) :
    (mapGet (ParseQuery (Values.Encode (queryValues u params))) k).getD []
      = (mapGet (queryValues u params) k).getD [] :=
  ParseQuery_Encode (nodup_mapKeys_queryValues u params) (valuesBytes_queryValues hu hp) k

/-! ## Lemmas: the two helpers and the dispatch -/

theorem foldl_setHeader_fields (hs : List (GoString × GoString)) (r : Request) :
    (hs.foldl (fun r kv => { r with Header := Header.Set r.Header kv.1 kv.2 }) r).Method
        = r.Method
      ∧ (hs.foldl (fun r kv => { r with Header := Header.Set r.Header kv.1 kv.2 }) r).URL
        = r.URL
      ∧ (hs.foldl (fun r kv => { r with Header := Header.Set r.Header kv.1 kv.2 }) r).Body
        = r.Body
      ∧ (hs.foldl (fun r kv => { r with Header := Header.Set r.Header kv.1 kv.2 }) r).Header
        = (hs.map fun kv => (CanonicalMIMEHeaderKey kv.1, [kv.2])).foldl
            (fun m e => mapPut m e.1 e.2) r.Header := by
  induction hs generalizing r with
  | nil => exact ⟨rfl, rfl, rfl, rfl⟩
  | cons kv hs ih =>
    have h := ih { r with Header := Header.Set r.Header kv.1 kv.2 }
    simp only [List.foldl_cons, List.map_cons]
    exact ⟨h.1, h.2.1, h.2.2.1, h.2.2.2⟩

theorem validMethod_GET : validMethod (str "GET") = true := by decide

theorem validMethod_POST : validMethod (str "POST") = true := by decide

theorem NewRequestWithContext_ok {parse : GoString → Except Error URL} {uri : GoString}
    {u : URL} (hp : parse uri = .ok u) {method : GoString} (hm : validMethod method = true)
    (body : List Nat) :
    NewRequestWithContext parse method uri body =
      (some { Method := method, URL := u, Header := [], Body := body }, none) := by
  have hne : method ≠ [] := by
    intro hc
    subst hc
    exact absurd hm (by decide)
  simp [NewRequestWithContext, hne, hm, hp]

theorem NewRequestWithContext_error {parse : GoString → Except Error URL} {uri : GoString}
    {e : Error} (hp : parse uri = .error e) {method : GoString}
    (hm : validMethod method = true) (body : List Nat) :
    NewRequestWithContext parse method uri body = (none, some e) := by
  have hne : method ≠ [] := by
    intro hc
    subst hc
    exact absurd hm (by decide)
  simp [NewRequestWithContext, hne, hm, hp]

/-- With a request in hand, the three steps run to the end: the headers are set, the
query is encoded, and `Do` is called once, on the finished request. -/
theorem dispatch_some {ρ : Type} (h : httpService ρ) (uri : GoString) (r : Request)
    (params : List (GoString × Any)) (headers : List (GoString × GoString)) :
    ∃ r1 r2, addHeadersToRequest (some r) headers = .ok (some r1)
      ∧ encodeQueryParameters (some r1) params = .ok r2
      ∧ dispatch h uri (some r) params headers
          = { uri := uri, calls := [r2], result := some (h.Do r2) }
      ∧ r2.Method = r.Method ∧ r2.Body = r.Body
      ∧ r2.URL = { r.URL with RawQuery := Values.Encode (queryValues r.URL params) }
      ∧ r2.Header = (headers.map fun kv => (CanonicalMIMEHeaderKey kv.1, [kv.2])).foldl
            (fun m e => mapPut m e.1 e.2) r.Header := by
  obtain ⟨h1, h2, h3, h4⟩ := foldl_setHeader_fields headers r
  refine ⟨_, _, rfl, rfl, ?_, ?_, ?_, ?_, ?_⟩
  · simp [dispatch, addHeadersToRequest, encodeQueryParameters]
  · exact h1
  · exact h3
  · simp only [h2]
  · exact h4

/-- With a nil request the call ends in a nil dereference, at the first header or at
`req.URL`, and `Do` is not reached. -/
theorem dispatch_none {ρ : Type} (h : httpService ρ) (uri : GoString)
    (params : List (GoString × Any)) (headers : List (GoString × GoString)) :
    dispatch h uri none params headers = { uri := uri, calls := [], result := none } := by
  cases headers <;> rfl

/-- Every run records the URL string it was given. -/
theorem dispatch_uri {ρ : Type} (h : httpService ρ) (uri : GoString) (req : Option Request)
    (params : List (GoString × Any)) (headers : List (GoString × GoString)) :
    (dispatch h uri req params headers).uri = uri := by
  cases req with
  | none => rw [dispatch_none]
  | some r =>
    obtain ⟨_, _, _, _, hd, _⟩ := dispatch_some h uri r params headers
    rw [hd]

/-! ## The URL join rule -/

/-- C1: `GetWithHeaders`, for every path, and `PostWithHeaders`, for every non-empty
path, name the span after and build the request from exactly the string
`baseURL + "/" + path`; when that string parses, the one request handed to `Do` has
the parsed URL with its query replaced by the encoded query parameters. -/
theorem url_join_rule {ρ : Type} (parse : GoString → Except Error URL) (h : httpService ρ)
    (path : GoString) (params : List (GoString × Any)) (body : List Nat)
    (headers : List (GoString × GoString)) :
    (GetWithHeaders parse h path params headers).uri = h.url ++ str "/" ++ path
    ∧ (path ≠ [] →
        (PostWithHeaders parse h path params body headers).uri = h.url ++ str "/" ++ path)
    ∧ (∀ u, parse (h.url ++ str "/" ++ path) = .ok u →
        (∃ r, (GetWithHeaders parse h path params headers).calls = [r]
          ∧ r.URL = { u with RawQuery := Values.Encode (queryValues u params) })
        ∧ (path ≠ [] →
          ∃ r, (PostWithHeaders parse h path params body headers).calls = [r]
            ∧ r.URL = { u with RawQuery := Values.Encode (queryValues u params) })) := by
  refine ⟨dispatch_uri _ _ _ _ _, ?_, ?_⟩
  · intro hp
    simp only [PostWithHeaders, hp, if_false]
    exact dispatch_uri _ _ _ _ _
  · intro u hu
    constructor
    · obtain ⟨r1, r2, _, _, hd, _, _, hurl, _⟩ :=
        dispatch_some h (h.url ++ str "/" ++ path)
          { Method := str "GET", URL := u, Header := [], Body := [] } params headers
      refine ⟨r2, ?_, hurl⟩
      simp only [GetWithHeaders, NewRequestWithContext_ok hu validMethod_GET, hd]
    · intro hp
      obtain ⟨r1, r2, _, _, hd, _, _, hurl, _⟩ :=
        dispatch_some h (h.url ++ str "/" ++ path)
          { Method := str "POST", URL := u, Header := [], Body := body } params headers
      refine ⟨r2, ?_, hurl⟩
      simp only [PostWithHeaders, hp, if_false, NewRequestWithContext_ok hu validMethod_POST, hd]


/-- C1, at `Get(ctx, "users", ...)` on the base `http://svc`, and at a base and a path
that both carry slashes, which are kept as they are. -/
theorem url_join_rule_witness :
    str "users" ≠ []
    ∧ urlParse (svc.url ++ str "/" ++ str "users")
        = .ok { Loc := str "http://svc/users", RawQuery := [], Fragment := [] }
    ∧ (GetWithHeaders urlParse svc (str "users") [(str "id", Any.string (str "7"))] []).uri
        = str "http://svc/users"
    ∧ (PostWithHeaders urlParse svc (str "users") [(str "id", Any.string (str "7"))]
        (str "payload") []).uri = str "http://svc/users"
    ∧ (∃ r, (GetWithHeaders urlParse svc (str "users")
          [(str "id", Any.string (str "7"))] []).calls = [r]
        ∧ r.URL = { Loc := str "http://svc/users", RawQuery := str "id=7", Fragment := [] })
    ∧ (∃ r, (PostWithHeaders urlParse svc (str "users")
          [(str "id", Any.string (str "7"))] (str "payload") []).calls = [r]
        ∧ r.URL = { Loc := str "http://svc/users", RawQuery := str "id=7", Fragment := [] })
    ∧ (GetWithHeaders urlParse (NewHTTPService plainRedirect answering (str "http://svc/")) (str "/a//b ")
        [] []).uri = str "http://svc///a//b " :=
  ⟨by decide, rfl,
    (url_join_rule urlParse svc (str "users") [(str "id", Any.string (str "7"))]
      (str "payload") []).1,
    (url_join_rule urlParse svc (str "users") [(str "id", Any.string (str "7"))]
      (str "payload") []).2.1 (by decide),
    ((url_join_rule urlParse svc (str "users") [(str "id", Any.string (str "7"))]
      (str "payload") []).2.2 _ rfl).1,
    ((url_join_rule urlParse svc (str "users") [(str "id", Any.string (str "7"))]
      (str "payload") []).2.2 _ rfl).2 (by decide),
    (url_join_rule urlParse (NewHTTPService plainRedirect answering (str "http://svc/")) (str "/a//b ")
      [] [] []).1⟩

/-- C2: `PostWithHeaders` and `Post` with the empty path name the span after and build
the request from the base URL exactly, for every base URL; when the base URL parses,
the one request handed to `Do` has the parsed URL with its query replaced by the
encoded query parameters. -/
theorem post_empty_path {ρ : Type} (parse : GoString → Except Error URL) (h : httpService ρ)
    (params : List (GoString × Any)) (body : List Nat)
    (headers : List (GoString × GoString)) :
    (PostWithHeaders parse h [] params body headers).uri = h.url
    ∧ (Post parse h [] params body).uri = h.url
    ∧ (∀ u, parse h.url = .ok u →
        (∃ r, (PostWithHeaders parse h [] params body headers).calls = [r]
          ∧ r.URL = { u with RawQuery := Values.Encode (queryValues u params) })
        ∧ (∃ r, (Post parse h [] params body).calls = [r]
          ∧ r.URL = { u with RawQuery := Values.Encode (queryValues u params) })) := by
  refine ⟨?_, ?_, ?_⟩
  · simp only [PostWithHeaders, if_true]
    exact dispatch_uri _ _ _ _ _
  · simp only [Post, PostWithHeaders, if_true]
    exact dispatch_uri _ _ _ _ _
  · intro u hu
    constructor
    · obtain ⟨r1, r2, _, _, hd, _, _, hurl, _⟩ :=
        dispatch_some h h.url
          { Method := str "POST", URL := u, Header := [], Body := body } params headers
      refine ⟨r2, ?_, hurl⟩
      simp only [PostWithHeaders, if_true, NewRequestWithContext_ok hu validMethod_POST, hd]
    · obtain ⟨r1, r2, _, _, hd, _, _, hurl, _⟩ :=
        dispatch_some h h.url
          { Method := str "POST", URL := u, Header := [], Body := body } params []
      refine ⟨r2, ?_, hurl⟩
      simp only [Post, PostWithHeaders, if_true,
        NewRequestWithContext_ok hu validMethod_POST, hd]

/-- C2, at `Post(ctx, "", nil, []byte("payload"))` on the base `http://svc`: the
request goes to `http://svc`, with no slash after it and an empty query. -/
theorem post_empty_path_witness :
    urlParse svc.url = .ok { Loc := str "http://svc", RawQuery := [], Fragment := [] }
    ∧ (Post urlParse svc [] [] (str "payload")).uri = str "http://svc"
    ∧ (∃ r, (Post urlParse svc [] [] (str "payload")).calls = [r]
        ∧ r.URL = { Loc := str "http://svc", RawQuery := [], Fragment := [] }) :=
  ⟨rfl,
    (post_empty_path urlParse svc [] (str "payload") []).2.1,
    ((post_empty_path urlParse svc [] (str "payload") []).2.2 _ rfl).2⟩

/-! ## Headers -/

/-- C3 as stated fails: for the header map with the two keys `a` and `A`, which have
the same canonical form `A`, the request keeps one header `A` with the value visited
last; in either order of the visit one key of the map does not carry its value. -/
theorem header_keys_collide :
    addHeadersToRequest (some req0) [(str "a", str "1"), (str "A", str "2")]
        = .ok (some { req0 with Header := [(str "A", [str "2"])] })
    ∧ Header.Values [(str "A", [str "2"])] (str "a") ≠ [str "1"]
    ∧ addHeadersToRequest (some req0) [(str "A", str "2"), (str "a", str "1")]
        = .ok (some { req0 with Header := [(str "A", [str "1"])] })
    ∧ Header.Values [(str "A", [str "1"])] (str "A") ≠ [str "2"] := by
  decide

/-- C3, amended: for a header map whose keys have pairwise distinct canonical forms,
every key of the map appears exactly once in the headers of the request, under its
canonical form, carrying exactly the value of the map, whatever was stored under that
name before; the same holds for the request `GetWithHeaders` and `PostWithHeaders`
hand to `Do`. -/
theorem headers_set_once (req : Request) (headers : List (GoString × GoString))
    (hcanon : (headers.map fun kv => CanonicalMIMEHeaderKey kv.1).Nodup)
    (hreq : (mapKeys req.Header).Nodup) :
    (∃ r, addHeadersToRequest (some req) headers = .ok (some r)
      ∧ ∀ k v, (k, v) ∈ headers →
          r.Header.filter (fun e => decide (e.1 = CanonicalMIMEHeaderKey k))
            = [(CanonicalMIMEHeaderKey k, [v])]
          ∧ Header.Values r.Header k = [v])
    ∧ (∀ (ρ : Type) (parse : GoString → Except Error URL) (h : httpService ρ)
        (path : GoString) (params : List (GoString × Any)) (body : List Nat),
        (∀ u, parse (h.url ++ str "/" ++ path) = .ok u →
          ∃ r, (GetWithHeaders parse h path params headers).calls = [r]
            ∧ ∀ k v, (k, v) ∈ headers →
              r.Header.filter (fun e => decide (e.1 = CanonicalMIMEHeaderKey k))
                = [(CanonicalMIMEHeaderKey k, [v])]
              ∧ Header.Values r.Header k = [v])
        ∧ (∀ u, parse (if path = [] then h.url else h.url ++ str "/" ++ path) = .ok u →
          ∃ r, (PostWithHeaders parse h path params body headers).calls = [r]
            ∧ ∀ k v, (k, v) ∈ headers →
              r.Header.filter (fun e => decide (e.1 = CanonicalMIMEHeaderKey k))
                = [(CanonicalMIMEHeaderKey k, [v])]
              ∧ Header.Values r.Header k = [v])) := by
  have hkeys : (mapKeys (headers.map fun kv => (CanonicalMIMEHeaderKey kv.1, [kv.2]))).Nodup := by
    simpa [mapKeys, List.map_map, Function.comp_def] using hcanon
  have key : ∀ (H0 : Header), (mapKeys H0).Nodup → ∀ k v, (k, v) ∈ headers →
      ((headers.map fun kv => (CanonicalMIMEHeaderKey kv.1, [kv.2])).foldl
          (fun m e => mapPut m e.1 e.2) H0).filter
            (fun e => decide (e.1 = CanonicalMIMEHeaderKey k))
        = [(CanonicalMIMEHeaderKey k, [v])]
      ∧ Header.Values ((headers.map fun kv => (CanonicalMIMEHeaderKey kv.1, [kv.2])).foldl
          (fun m e => mapPut m e.1 e.2) H0) k = [v] := by
    intro H0 hH0 k v hkv
    have hmem : (CanonicalMIMEHeaderKey k, [v]) ∈
        headers.map fun kv => (CanonicalMIMEHeaderKey kv.1, [kv.2]) :=
      List.mem_map.mpr ⟨(k, v), hkv, rfl⟩
    have hget := (mapGet_eq_some_iff hkeys (CanonicalMIMEHeaderKey k) [v]).mpr hmem
    have hfold := mapGet_foldl_mapPut _ hkeys H0 (CanonicalMIMEHeaderKey k)
    rw [hget] at hfold
    constructor
    · rw [filter_key_eq (nodup_mapKeys_foldl_mapPut _ hH0), hfold]
    · simp only [Header.Values, hfold, Option.getD_some]
  refine ⟨?_, ?_⟩
  · obtain ⟨h1, h2, h3, h4⟩ := foldl_setHeader_fields headers req
    refine ⟨_, rfl, ?_⟩
    intro k v hkv
    rw [h4]
    exact key req.Header hreq k v hkv
  · intro ρ parse h path params body
    constructor
    · intro u hu
      obtain ⟨r1, r2, _, _, hd, _, _, _, hhdr⟩ :=
        dispatch_some h (h.url ++ str "/" ++ path)
          { Method := str "GET", URL := u, Header := [], Body := [] } params headers
      refine ⟨r2, ?_, ?_⟩
      · simp only [GetWithHeaders, NewRequestWithContext_ok hu validMethod_GET, hd]
      · intro k v hkv
        rw [hhdr]
        exact key [] (by simp [mapKeys]) k v hkv
    · intro u hu
      obtain ⟨r1, r2, _, _, hd, _, _, _, hhdr⟩ :=
        dispatch_some h (if path = [] then h.url else h.url ++ str "/" ++ path)
          { Method := str "POST", URL := u, Header := [], Body := body } params headers
      refine ⟨r2, ?_, ?_⟩
      · simp only [PostWithHeaders, NewRequestWithContext_ok hu validMethod_POST, hd]
      · intro k v hkv
        rw [hhdr]
        exact key [] (by simp [mapKeys]) k v hkv

/-- C3, amended, at `GetWithHeaders(ctx, "x", nil, ...)` with the header
`Authorization: Bearer t`, and on a request that already has a `Content-Type`
header, which the map's `content-type` replaces. -/
theorem headers_set_once_witness :
    ([(str "Authorization", str "Bearer t"), (str "content-type", str "text/plain")].map
        fun kv => CanonicalMIMEHeaderKey kv.1).Nodup
    ∧ (mapKeys ({ req0 with Header := [(str "Content-Type", [str "a", str "b"])] }).Header).Nodup
    ∧ addHeadersToRequest
        (some { req0 with Header := [(str "Content-Type", [str "a", str "b"])] })
        [(str "Authorization", str "Bearer t"), (str "content-type", str "text/plain")]
      = .ok (some { req0 with Header :=
          [(str "Content-Type", [str "text/plain"]), (str "Authorization", [str "Bearer t"])] })
    ∧ (∃ r, addHeadersToRequest
          (some { req0 with Header := [(str "Content-Type", [str "a", str "b"])] })
          [(str "Authorization", str "Bearer t"), (str "content-type", str "text/plain")]
        = .ok (some r)
      ∧ ∀ k v, (k, v) ∈
          [(str "Authorization", str "Bearer t"), (str "content-type", str "text/plain")] →
          r.Header.filter (fun e => decide (e.1 = CanonicalMIMEHeaderKey k))
            = [(CanonicalMIMEHeaderKey k, [v])]
          ∧ Header.Values r.Header k = [v]) :=
  ⟨by decide, by decide, by decide,
    (headers_set_once { req0 with Header := [(str "Content-Type", [str "a", str "b"])] }
      [(str "Authorization", str "Bearer t"), (str "content-type", str "text/plain")]
      (by decide) (by decide)).1⟩

/-! ## Query parameters -/

theorem mapGet_of_mem {params : List (GoString × Any)} (hnd : (mapKeys params).Nodup)
    {k : GoString} {v : Any} (hmem : (k, v) ∈ params) : mapGet params k = some v :=
  (mapGet_eq_some_iff hnd k v).mpr hmem

/-- The pairs written for a key of `params` on which the loop set the value `x`. -/
theorem entries_filter_set (u : URL) {params : List (GoString × Any)}
    (hnd : (mapKeys params).Nodup) {k : GoString} {v : Any} (hmem : (k, v) ∈ params)
    {x : GoString} (hx : lastSet v = some x) :
    (Values.entries (queryValues u params)).filter (fun e => decide (e.1 = k)) = [(k, x)] := by
  rw [entries_filter (nodup_mapKeys_queryValues u params), mapGet_queryValues u hnd,
    mapGet_of_mem hnd hmem]
  simp [hx]

/-- The pairs written for a key on which the loop set nothing. -/
theorem entries_filter_kept (u : URL) {params : List (GoString × Any)}
    (hnd : (mapKeys params).Nodup) {k : GoString}
    (hk : (mapGet params k).bind lastSet = none) :
    (Values.entries (queryValues u params)).filter (fun e => decide (e.1 = k))
      = (Values.entries (URL.Query u)).filter (fun e => decide (e.1 = k)) := by
  rw [entries_filter (nodup_mapKeys_queryValues u params), mapGet_queryValues u hnd, hk,
    entries_filter (nodup_mapKeys_Query u)]

theorem lastSet_of_not_strings {v : Any} (hv : ∀ vt, v ≠ Any.strings vt) :
    lastSet v = some (Sprintf v) := by
  cases v with
  | strings vt => exact absurd rfl (hv vt)
  | string s => rfl
  | int n => rfl
  | bool b => rfl
  | nil => rfl
  | other t => rfl

/-- The written query string, read back by `url.ParseQuery`, has exactly the one value
`x` under a key of `params` on which the loop set `x`. -/
theorem Query_set {u : URL} (hu : isBytes u.RawQuery = true)
    {params : List (GoString × Any)} (hp : paramsBytes params = true)
    (hnd : (mapKeys params).Nodup) {k : GoString} {v : Any} (hmem : (k, v) ∈ params)
    {x : GoString} (hx : lastSet v = some x) :
    mapGet (ParseQuery (Values.Encode (queryValues u params))) k = some [x] := by
  have h := Query_after_encode hu hp k
  rw [mapGet_queryValues u hnd, mapGet_of_mem hnd hmem] at h
  simp only [Option.some_bind, hx, Option.getD_some] at h
  cases hg : mapGet (ParseQuery (Values.Encode (queryValues u params))) k with
  | none =>
    rw [hg] at h
    simp at h
  | some vs =>
    rw [hg] at h
    simp only [Option.getD_some] at h
    rw [h]

/-- The written query string, read back by `url.ParseQuery`, has under every key the
values of the pairs written for that key, in order. -/
theorem Query_entries {u : URL} (hu : isBytes u.RawQuery = true)
    {params : List (GoString × Any)} (hp : paramsBytes params = true) (k : GoString) :
    (mapGet (ParseQuery (Values.Encode (queryValues u params))) k).getD []
      = ((Values.entries (queryValues u params)).filter
          (fun e => decide (e.1 = k))).map Prod.snd := by
  rw [Query_after_encode hu hp k, entries_filter (nodup_mapKeys_queryValues u params)]
  simp [Function.comp_def]

/-- C4 as stated fails: under the key `k` the map holds the empty sequence of strings;
the loop over the sequence sets nothing, so the encoded query is empty and has no
occurrence of `k`. -/
theorem empty_sequence_sets_nothing :
    encodeQueryParameters (some req0) [(str "k", Any.strings [])]
      = .ok { req0 with URL := { req0.URL with RawQuery := [] } }
    ∧ (Values.entries (queryValues req0.URL [(str "k", Any.strings [])])).filter
        (fun e => decide (e.1 = str "k")) = []
    ∧ mapGet (URL.Query { req0.URL with RawQuery := [] }) (str "k") = none := by
  decide

/-- C4, amended: for every parameter map that holds a non-empty sequence of strings
under the key `k`, `encodeQueryParameters` replaces the query of the request by the
encoding of values in which `k` is written exactly once, with the last element of
the sequence as its value; and when the strings are made of bytes, the new query
string read back by `URL.Query` has exactly that one value under `k`. -/
theorem sequence_last_wins (req : Request) (params : List (GoString × Any))
    (hnd : (mapKeys params).Nodup) (k : GoString) (vt : List GoString)
    (hmem : (k, Any.strings vt) ∈ params) (hne : vt ≠ []) :
    ∃ r, encodeQueryParameters (some req) params = .ok r
      ∧ r.URL.RawQuery = Values.Encode (queryValues req.URL params)
      ∧ (Values.entries (queryValues req.URL params)).filter (fun e => decide (e.1 = k))
        = [(k, vt.getLast hne)]
      ∧ (isBytes req.URL.RawQuery = true → paramsBytes params = true →
          mapGet (URL.Query r.URL) k = some [vt.getLast hne]) :=
  ⟨_, rfl, rfl, entries_filter_set req.URL hnd hmem (List.getLast?_eq_getLast vt hne),
    fun hu hp => Query_set hu hp hnd hmem (List.getLast?_eq_getLast vt hne)⟩

/-- C4, amended, at the map with the sequence `["a", "b", "c"]` under `tag`: the
query is `tag=c`. -/
theorem sequence_last_wins_witness :
    (mapKeys [(str "tag", Any.strings [str "a", str "b", str "c"])]).Nodup
    ∧ (str "tag", Any.strings [str "a", str "b", str "c"])
        ∈ [(str "tag", Any.strings [str "a", str "b", str "c"])]
    ∧ [str "a", str "b", str "c"] ≠ []
    ∧ isBytes req0.URL.RawQuery = true
    ∧ paramsBytes [(str "tag", Any.strings [str "a", str "b", str "c"])] = true
    ∧ ∃ r, encodeQueryParameters (some req0)
          [(str "tag", Any.strings [str "a", str "b", str "c"])] = .ok r
        ∧ r.URL.RawQuery = str "tag=c"
        ∧ mapGet (URL.Query r.URL) (str "tag") = some [str "c"] := by
  obtain ⟨r, h1, h2, _, h4⟩ :=
    sequence_last_wins req0 [(str "tag", Any.strings [str "a", str "b", str "c"])]
      (by decide) (str "tag") [str "a", str "b", str "c"] (by decide) (by decide)
  exact ⟨by decide, by decide, by decide, by decide, by decide,
    r, h1, h2.trans (by decide), h4 (by decide) (by decide)⟩

/-- C5: for every entry `(k, v)` of the parameter map whose value is not a sequence of
strings, `encodeQueryParameters` replaces the query of the request by the encoding of
values in which `k` is written exactly once, with the rendering
`fmt.Sprintf("%v", v)` as its value; when the strings are made of bytes, the new query
string read back by `URL.Query` has exactly that one value under `k`; a string renders
as itself and the integer 42 as `42`. -/
theorem scalar_rendered (req : Request) (params : List (GoString × Any))
    (hnd : (mapKeys params).Nodup) (k : GoString) (v : Any)
    (hmem : (k, v) ∈ params) (hv : ∀ vt, v ≠ Any.strings vt) :
    (∃ r, encodeQueryParameters (some req) params = .ok r
      ∧ r.URL.RawQuery = Values.Encode (queryValues req.URL params)
      ∧ (Values.entries (queryValues req.URL params)).filter (fun e => decide (e.1 = k))
        = [(k, Sprintf v)]
      ∧ (isBytes req.URL.RawQuery = true → paramsBytes params = true →
          mapGet (URL.Query r.URL) k = some [Sprintf v]))
    ∧ (∀ s, Sprintf (Any.string s) = s)
    ∧ Sprintf (Any.int 42) = str "42" :=
  ⟨⟨_, rfl, rfl, entries_filter_set req.URL hnd hmem (lastSet_of_not_strings hv),
      fun hu hp => Query_set hu hp hnd hmem (lastSet_of_not_strings hv)⟩,
    fun _ => rfl, by decide⟩

/-- C5, at a map with the string `7` under `id` and the integer 42 under `n`, and at
`Get(ctx, "users", ...)` with the map of `id` to `7`, where the request goes out to
`http://svc/users` with the query `id=7`. -/
theorem scalar_rendered_witness :
    (mapKeys [(str "id", Any.string (str "7")), (str "n", Any.int 42)]).Nodup
    ∧ (str "n", Any.int 42) ∈ [(str "id", Any.string (str "7")), (str "n", Any.int 42)]
    ∧ (∀ vt, Any.int 42 ≠ Any.strings vt)
    ∧ isBytes req0.URL.RawQuery = true
    ∧ paramsBytes [(str "id", Any.string (str "7")), (str "n", Any.int 42)] = true
    ∧ (∃ r, encodeQueryParameters (some req0)
          [(str "id", Any.string (str "7")), (str "n", Any.int 42)] = .ok r
        ∧ r.URL.RawQuery = str "id=7&n=42"
        ∧ mapGet (URL.Query r.URL) (str "n") = some [str "42"])
    ∧ (Get urlParse svc (str "users") [(str "id", Any.string (str "7"))]).calls.map
        (fun r => (r.Method, r.URL.Loc, r.URL.RawQuery))
      = [(str "GET", str "http://svc/users", str "id=7")] := by
  obtain ⟨⟨r, h1, h2, _, h4⟩, _⟩ :=
    scalar_rendered req0 [(str "id", Any.string (str "7")), (str "n", Any.int 42)]
      (by decide) (str "n") (Any.int 42) (by decide) (fun _ hc => Any.noConfusion hc)
  exact ⟨by decide, by decide, fun _ hc => Any.noConfusion hc, by decide, by decide,
    ⟨r, h1, h2.trans (by decide), h4 (by decide) (by decide)⟩, by decide⟩

/-! ## Method, body, delegation and the transport -/

/-- C6: whenever the target URL parses, so that a request is built, the one request
`PostWithHeaders` hands to `Do` has the method `POST` and exactly the given body, and
the one request `GetWithHeaders` hands to `Do` has the method `GET` and an empty
body. -/
theorem method_and_body {ρ : Type} (parse : GoString → Except Error URL) (h : httpService ρ)
    (path : GoString) (params : List (GoString × Any)) (body : List Nat)
    (headers : List (GoString × GoString)) :
    (∀ u, parse (if path = [] then h.url else h.url ++ str "/" ++ path) = .ok u →
      ∃ r, (PostWithHeaders parse h path params body headers).calls = [r]
        ∧ r.Method = str "POST" ∧ r.Body = body)
    ∧ (∀ u, parse (h.url ++ str "/" ++ path) = .ok u →
      ∃ r, (GetWithHeaders parse h path params headers).calls = [r]
        ∧ r.Method = str "GET" ∧ r.Body = []) := by
  constructor
  · intro u hu
    obtain ⟨r1, r2, _, _, hd, hm, hb, _, _⟩ :=
      dispatch_some h (if path = [] then h.url else h.url ++ str "/" ++ path)
        { Method := str "POST", URL := u, Header := [], Body := body } params headers
    refine ⟨r2, ?_, hm, hb⟩
    simp only [PostWithHeaders, NewRequestWithContext_ok hu validMethod_POST, hd]
  · intro u hu
    obtain ⟨r1, r2, _, _, hd, hm, hb, _, _⟩ :=
      dispatch_some h (h.url ++ str "/" ++ path)
        { Method := str "GET", URL := u, Header := [], Body := [] } params headers
    refine ⟨r2, ?_, hm, hb⟩
    simp only [GetWithHeaders, NewRequestWithContext_ok hu validMethod_GET, hd]

/-- C6, at `Post(ctx, "", nil, []byte("payload"))` and at `Get(ctx, "users", nil)` on
the base `http://svc`. -/
theorem method_and_body_witness :
    urlParse (if ([] : GoString) = [] then svc.url else svc.url ++ str "/" ++ [])
      = .ok { Loc := str "http://svc", RawQuery := [], Fragment := [] }
    ∧ urlParse (svc.url ++ str "/" ++ str "users")
      = .ok { Loc := str "http://svc/users", RawQuery := [], Fragment := [] }
    ∧ (∃ r, (PostWithHeaders urlParse svc [] [] (str "payload") []).calls = [r]
        ∧ r.Method = str "POST" ∧ r.Body = str "payload")
    ∧ (∃ r, (GetWithHeaders urlParse svc (str "users") [] []).calls = [r]
        ∧ r.Method = str "GET" ∧ r.Body = []) :=
  ⟨rfl, rfl,
    (method_and_body urlParse svc [] [] (str "payload") []).1 _ rfl,
    (method_and_body urlParse svc (str "users") [] (str "payload") []).2 _ rfl⟩

/-- C7: `Get` is `GetWithHeaders` with the nil header map and `Post` is
`PostWithHeaders` with the nil header map: the same target, the same request handed
to `Do`, the same result; and the nil header map leaves every request as it is. -/
theorem header_free_cases {ρ : Type} (parse : GoString → Except Error URL)
    (h : httpService ρ) (path : GoString) (params : List (GoString × Any))
    (body : List Nat) :
    Get parse h path params = GetWithHeaders parse h path params []
    ∧ Post parse h path params body = PostWithHeaders parse h path params body []
    ∧ (∀ req, addHeadersToRequest req [] = .ok req) := by
  refine ⟨rfl, rfl, ?_⟩
  intro req
  cases req <;> rfl

/-- When the target URL does not parse, the constructor returns a nil request with the
error, and the call ends in a nil dereference: no request is handed to `Do` and no
pair is returned. -/
theorem nil_request_not_dispatched {ρ : Type} (parse : GoString → Except Error URL)
    (h : httpService ρ) (path : GoString) (params : List (GoString × Any))
    (body : List Nat) (headers : List (GoString × GoString)) (e : Error) :
    (parse (h.url ++ str "/" ++ path) = .error e →
      NewRequestWithContext parse (str "GET") (h.url ++ str "/" ++ path) [] = (none, some e)
      ∧ (GetWithHeaders parse h path params headers).calls = []
      ∧ (GetWithHeaders parse h path params headers).result = none)
    ∧ (parse (if path = [] then h.url else h.url ++ str "/" ++ path) = .error e →
      NewRequestWithContext parse (str "POST")
          (if path = [] then h.url else h.url ++ str "/" ++ path) body = (none, some e)
      ∧ (PostWithHeaders parse h path params body headers).calls = []
      ∧ (PostWithHeaders parse h path params body headers).result = none) := by
  constructor
  · intro he
    have hn := NewRequestWithContext_error he validMethod_GET []
    refine ⟨hn, ?_, ?_⟩
    · simp only [GetWithHeaders, hn, dispatch_none]
    · simp only [GetWithHeaders, hn, dispatch_none]
  · intro he
    have hn := NewRequestWithContext_error he validMethod_POST body
    refine ⟨hn, ?_, ?_⟩
    · simp only [PostWithHeaders, hn, dispatch_none]
    · simp only [PostWithHeaders, hn, dispatch_none]

/-- C9, the code at a failing input: on the base `http://svc` the path `a\nb` has a
control byte, so `url.Parse` fails and the constructor returns a nil request with the
error, which is dropped. The call does not go on to dispatch: with the nil header map
it ends in a nil dereference at `req.URL` in `encodeQueryParameters`, with a header in
the map already at `req.Header` in `addHeadersToRequest`; `Do` is handed nothing and
no pair is returned, for `GetWithHeaders` and for `PostWithHeaders`. -/
theorem malformed_target_not_dispatched :
    NewRequestWithContext urlParse (str "GET") (svc.url ++ str "/" ++ str "a\nb") []
      = (none, some (.url (str "parse") (str "http://svc/a\nb")
          (.text (str "net/url: invalid control character in URL"))))
    ∧ addHeadersToRequest none [] = .ok none
    ∧ encodeQueryParameters none [(str "id", Any.string (str "7"))] = .crash
    ∧ addHeadersToRequest none [(str "Authorization", str "Bearer t")] = .crash
    ∧ (GetWithHeaders urlParse svc (str "a\nb") [(str "id", Any.string (str "7"))] []).calls
      = []
    ∧ (GetWithHeaders urlParse svc (str "a\nb") [(str "id", Any.string (str "7"))] []).result
      = none
    ∧ (PostWithHeaders urlParse svc (str "a\nb") [] (str "payload")
        [(str "Authorization", str "Bearer t")]).calls = []
    ∧ (PostWithHeaders urlParse svc (str "a\nb") [] (str "payload")
        [(str "Authorization", str "Bearer t")]).result = none := by
  decide

/-! ## The encoded query as a function of the map and of the URL -/

/-- C10 as stated fails: the target URL has the query `k=1&k=2` and the map holds the
empty sequence of strings under `k`; the key of the map is then written twice, not
once, and the value of the map has not replaced the values of the URL. -/
theorem empty_sequence_keeps_url_values :
    (Get urlParse svc (str "users?k=1&k=2") [(str "k", Any.strings [])]).calls.map
        (fun r => r.URL.RawQuery) = [str "k=1&k=2"]
    ∧ (Values.entries
        (queryValues { Loc := str "http://svc/users", RawQuery := str "k=1&k=2", Fragment := [] }
          [(str "k", Any.strings [])])).filter (fun e => decide (e.1 = str "k"))
      = [(str "k", str "1"), (str "k", str "2")] := by
  decide

/-- C10, amended: the query `encodeQueryParameters` writes is the same for every order
in which the entries of the parameter map are visited; its keys are written in sorted
order; a key of the map whose value is not an empty sequence of strings is written
exactly once, with the value of the map (the last element of a sequence, the rendering
of any other value) in place of what the URL had; a key that the map does not hold, or
holds with an empty sequence, is written with the values the query of the target URL
had for it; and when the strings are made of bytes, the new query string read back by
`URL.Query` has under every key the values written for it. -/
theorem query_deterministic (req : Request) (params params2 : List (GoString × Any))
    (hperm : params.Perm params2) (hnd : (mapKeys params).Nodup) :
    encodeQueryParameters (some req) params = encodeQueryParameters (some req) params2
    ∧ encodeQueryParameters (some req) params
      = .ok { req with URL :=
          { req.URL with RawQuery := Values.Encode (queryValues req.URL params) } }
    ∧ ((Values.entries (queryValues req.URL params)).map Prod.fst).Sorted
        (fun a b => strLe a b = true)
    ∧ (∀ k v, (k, v) ∈ params → v ≠ Any.strings [] →
        ∃ x, (Values.entries (queryValues req.URL params)).filter (fun e => decide (e.1 = k))
            = [(k, x)]
          ∧ ((∃ vt, v = Any.strings vt ∧ vt.getLast? = some x)
            ∨ ((∀ vt, v ≠ Any.strings vt) ∧ x = Sprintf v)))
    ∧ (∀ k, (k ∉ mapKeys params ∨ (k, Any.strings []) ∈ params) →
        (Values.entries (queryValues req.URL params)).filter (fun e => decide (e.1 = k))
          = (Values.entries (URL.Query req.URL)).filter (fun e => decide (e.1 = k)))
    ∧ (isBytes req.URL.RawQuery = true → paramsBytes params = true → ∀ k,
        (mapGet (ParseQuery (Values.Encode (queryValues req.URL params))) k).getD []
          = ((Values.entries (queryValues req.URL params)).filter
              (fun e => decide (e.1 = k))).map Prod.snd) := by
  have hnd2 : (mapKeys params2).Nodup := (hperm.map Prod.fst).nodup_iff.mp hnd
  refine ⟨?_, rfl, entries_sorted _, ?_, ?_, fun hu hp k => Query_entries hu hp k⟩
  · have hent : Values.entries (queryValues req.URL params)
        = Values.entries (queryValues req.URL params2) := by
      apply entries_congr (nodup_mapKeys_queryValues _ _) (nodup_mapKeys_queryValues _ _)
      intro k
      rw [mapGet_queryValues req.URL hnd, mapGet_queryValues req.URL hnd2,
        mapGet_perm hperm hnd k]
    simp only [encodeQueryParameters, Values.Encode, hent]
  · intro k v hmem hv
    cases v with
    | strings vt =>
      cases hl : vt.getLast? with
      | none =>
        rw [List.getLast?_eq_none_iff] at hl
        subst hl
        exact absurd rfl hv
      | some x =>
        exact ⟨x, entries_filter_set req.URL hnd hmem hl, Or.inl ⟨vt, rfl, hl⟩⟩
    | string s =>
      exact ⟨_, entries_filter_set req.URL hnd hmem rfl,
        Or.inr ⟨fun _ hc => Any.noConfusion hc, rfl⟩⟩
    | int n =>
      exact ⟨_, entries_filter_set req.URL hnd hmem rfl,
        Or.inr ⟨fun _ hc => Any.noConfusion hc, rfl⟩⟩
    | bool b =>
      exact ⟨_, entries_filter_set req.URL hnd hmem rfl,
        Or.inr ⟨fun _ hc => Any.noConfusion hc, rfl⟩⟩
    | nil =>
      exact ⟨_, entries_filter_set req.URL hnd hmem rfl,
        Or.inr ⟨fun _ hc => Any.noConfusion hc, rfl⟩⟩
    | other t =>
      exact ⟨_, entries_filter_set req.URL hnd hmem rfl,
        Or.inr ⟨fun _ hc => Any.noConfusion hc, rfl⟩⟩
  · intro k hk
    apply entries_filter_kept req.URL hnd
    rcases hk with hk | hk
    · rw [(mapGet_eq_none_iff params k).mpr hk]
      rfl
    · rw [mapGet_of_mem hnd hk]
      rfl

/-- C10, amended, at a target URL with the query `b=2&a=%41&k=0` and a map visited in
two orders: both give `a=A&b=2&k=1&t=z`, where `k` has the value of the map and `a`,
`b` the values of the URL. -/
theorem query_deterministic_witness :
    [(str "k", Any.int 1), (str "t", Any.strings [str "y", str "z"])].Perm
      [(str "t", Any.strings [str "y", str "z"]), (str "k", Any.int 1)]
    ∧ (mapKeys [(str "k", Any.int 1), (str "t", Any.strings [str "y", str "z"])]).Nodup
    ∧ encodeQueryParameters
        (some { req0 with URL := { req0.URL with RawQuery := str "b=2&a=%41&k=0" } })
        [(str "k", Any.int 1), (str "t", Any.strings [str "y", str "z"])]
      = .ok { req0 with URL := { req0.URL with RawQuery := str "a=A&b=2&k=1&t=z" } }
    ∧ encodeQueryParameters
        (some { req0 with URL := { req0.URL with RawQuery := str "b=2&a=%41&k=0" } })
        [(str "k", Any.int 1), (str "t", Any.strings [str "y", str "z"])]
      = encodeQueryParameters
        (some { req0 with URL := { req0.URL with RawQuery := str "b=2&a=%41&k=0" } })
        [(str "t", Any.strings [str "y", str "z"]), (str "k", Any.int 1)] :=
  ⟨List.Perm.swap _ _ _, by decide, by decide,
    (query_deterministic
      { req0 with URL := { req0.URL with RawQuery := str "b=2&a=%41&k=0" } }
      [(str "k", Any.int 1), (str "t", Any.strings [str "y", str "z"])]
      [(str "t", Any.strings [str "y", str "z"]), (str "k", Any.int 1)]
      (List.Perm.swap _ _ _) (by decide)).1⟩

end Service
